import Mathlib

/-!
# Verification of the dkg.py integrity core

A shallow embedding, in Lean 4, of the computational core of the OriginTrail
`dkg.py` client, together with proofs about it:

* `src/dkg/utils/merkle.py` — positional statement hashing
  (`hash_assertion_with_indexes`), the `MerkleTree` bottom-up build, inclusion
  proofs and sorted-pair verification;
* `src/dkg/asset.py` — the state-selector resolution inside
  `KnowledgeAsset.get` (`handle_latest_state` and the `match state` dispatch),
  and the Merkle-root validation step guarded by `validate`;
* `src/dkg/utils/decorators.py` and `src/dkg/utils/node_request.py` — the
  `retry` polling loop and `validate_operation_status`;
* `src/dkg/utils/ual.py` — `parse_ual`.

Python values are modelled as follows: statements and hash digests are
`String` (the Python code manipulates hex digests as `str`); the hash
functions (`solidity_keccak256` and the inner `Web3.solidity_keccak` over the
statement text) are explicit parameters `hf sh : String → String`, exactly as
`hash_function` is a parameter in the source; list indices are `Nat`; the
Python `int` state selector is `Int`; fallible code returns `Except`.
Properties that rest on collision-freeness of Keccak-256 take decidable
hypotheses asserting the absence of collisions among the finitely many
digests that the computation at hand actually produces.
-/

/-! ## String helpers

Python-faithful primitives: `str.split(sep)` for a one-character separator,
`bytes.hex()`-style fixed-width uint256 encoding (the `encode_packed
(["bytes32", "uint256"], ...)` tail), ASCII `str.upper()`, and `int(str)` on
plain signed decimal literals. -/

/-- `Char`-list core of Python `str.split(sep)` for a single-character `sep`:
`"".split(c) = [""]`, separators delimit possibly empty fields. -/
def pySplitChar (c : Char) : List Char → List (List Char)
  | [] => [[]]
  | x :: xs =>
    let r := pySplitChar c xs
    if x = c then [] :: r else (x :: r.headD []) :: r.tail

/-- Python `s.split(sep)` for a one-character separator. -/
def pySplit (c : Char) (s : String) : List String :=
  (pySplitChar c s.data).map (fun l => ⟨l⟩)

/-- Lowercase hex digit for `d < 16`, as produced by Python `bytes.hex()`. -/
def hexDigit (d : Nat) : Char :=
  if d < 10 then Char.ofNat (48 + d) else Char.ofNat (97 + (d - 10))

/-- Numeric value of a lowercase hex digit (inverse of `hexDigit`). -/
def hexDigitVal (c : Char) : Nat :=
  if c.toNat < 97 then c.toNat - 48 else c.toNat - 87

/-- Big-endian hex digits of `n`, computed with explicit fuel so that the
kernel can evaluate it. With fuel ≥ 1 and `n < 16 ^ fuel` this is the plain
hex representation of `n` without leading zeros (except `0 ↦ "0"`). -/
def hexChars (fuel n : Nat) : List Char :=
  match fuel with
  | 0 => []
  | fuel + 1 =>
    if n < 16 then [hexDigit n] else hexChars fuel (n / 16) ++ [hexDigit (n % 16)]

/-- Big-endian hex value of a digit list (decoder used to reason about
`hexChars`). -/
def hexToNat (l : List Char) : Nat :=
  l.foldl (fun acc c => 16 * acc + hexDigitVal c) 0

/-- The 64-hex-character (32-byte) big-endian encoding of a `uint256`, as
`encode_packed(["bytes32", "uint256"], [...]).hex()` renders the index in
`hash_assertion_with_indexes`. -/
def encodeUint256 (n : Nat) : String :=
  let ds := hexChars (n + 1) n
  ⟨List.replicate (64 - ds.length) '0' ++ ds⟩

/-- ASCII case of Python `str.upper()` (the only case exercised by the state
selectors `"latest"`, `"latest_finalized"`, …). -/
def pyUpperChar (c : Char) : Char :=
  if 97 ≤ c.toNat ∧ c.toNat ≤ 122 then Char.ofNat (c.toNat - 32) else c

/-- Python `s.upper()` restricted to ASCII letters. -/
def pyUpper (s : String) : String :=
  ⟨s.data.map pyUpperChar⟩

/-- Digits-only decimal reading used by `pyInt?`. -/
def decDigits? (l : List Char) : Option Nat :=
  if l ≠ [] ∧ l.all (fun c => 48 ≤ c.toNat ∧ c.toNat ≤ 57) then
    some (l.foldl (fun acc c => 10 * acc + (c.toNat - 48)) 0)
  else none

/-- Python `int(s)` on plain decimal literals with an optional sign (the form
token ids take inside a UAL); other inputs raise `ValueError`, here `none`. -/
def pyInt? (s : String) : Option Int :=
  match s.data with
  | '-' :: rest => (decDigits? rest).map (fun n => -(n : Int))
  | '+' :: rest => (decDigits? rest).map (fun n => (n : Int))
  | l => (decDigits? l).map (fun n => (n : Int))

/-- Python string `<`: lexicographic comparison of code points, written as a
structural function so that the kernel can evaluate it. It agrees with
Python's `str` comparison, which `sorted` and `list.sort` use. -/
def pyStrLtChars : List Char → List Char → Bool
  | [], [] => false
  | [], _ :: _ => true
  | _ :: _, [] => false
  | a :: as, b :: bs => if a = b then pyStrLtChars as bs else decide (a < b)

/-- Python `a < b` on strings. -/
def pyStrLt (a b : String) : Bool := pyStrLtChars a.data b.data

/-- Python `a <= b` on strings (`not (b < a)`). -/
def pyLe (a b : String) : Prop := pyStrLt b a = false

instance : DecidableRel pyLe := fun a b =>
  inferInstanceAs (Decidable (pyStrLt b a = false))

theorem pyStrLtChars_asymm : ∀ x y, pyStrLtChars x y = true → pyStrLtChars y x = false
  | [], [] => by simp [pyStrLtChars]
  | [], _ :: _ => by simp [pyStrLtChars]
  | _ :: _, [] => by simp [pyStrLtChars]
  | a :: as, b :: bs => by
    simp only [pyStrLtChars]
    by_cases hab : a = b
    · subst hab
      simp only [if_pos rfl]
      exact pyStrLtChars_asymm as bs
    · rw [if_neg hab, if_neg (Ne.symm hab)]
      simp only [decide_eq_true_eq, decide_eq_false_iff_not, not_lt]
      exact le_of_lt

theorem pyStrLtChars_eq_of_not_lt : ∀ x y, pyStrLtChars x y = false →
    pyStrLtChars y x = false → x = y
  | [], [] => fun _ _ => rfl
  | [], _ :: _ => by simp [pyStrLtChars]
  | _ :: _, [] => by simp [pyStrLtChars]
  | a :: as, b :: bs => by
    simp only [pyStrLtChars]
    by_cases hab : a = b
    · subst hab
      simp only [if_pos rfl]
      intro h1 h2
      rw [pyStrLtChars_eq_of_not_lt as bs h1 h2]
    · rw [if_neg hab, if_neg (Ne.symm hab)]
      simp only [decide_eq_false_iff_not, not_lt]
      intro h1 h2
      exact absurd (le_antisymm h2 h1) hab

theorem pyStrLtChars_trans : ∀ x y z, pyStrLtChars x y = true →
    pyStrLtChars y z = true → pyStrLtChars x z = true
  | [], [], _ => by simp [pyStrLtChars]
  | [], _ :: _, [] => by simp [pyStrLtChars]
  | [], _ :: _, _ :: _ => by simp [pyStrLtChars]
  | _ :: _, [], _ => by simp [pyStrLtChars]
  | _ :: _, _ :: _, [] => by simp [pyStrLtChars]
  | a :: as, b :: bs, c :: cs => by
    simp only [pyStrLtChars]
    by_cases hab : a = b <;> by_cases hbc : b = c
    · subst hab; subst hbc
      simp only [if_pos rfl]
      exact pyStrLtChars_trans as bs cs
    · subst hab
      rw [if_pos rfl, if_neg hbc, if_neg hbc]
      exact fun _ h => h
    · subst hbc
      rw [if_neg hab, if_pos rfl, if_neg hab]
      exact fun h _ => h
    · rw [if_neg hab, if_neg hbc]
      simp only [decide_eq_true_eq]
      intro h1 h2
      have hac : a < c := lt_trans h1 h2
      rw [if_neg (ne_of_lt hac)]
      simp [hac]

/-! ## Merkle tree (src/dkg/utils/merkle.py)

`hash_function` is the parameter `hf : String → String`; `sort_pairs` is the
parameter `sp`. Python's `sorted([h1, h2])` on two strings swaps the pair
exactly when `h2 < h1` in the code-point lexicographic order (`pyStrLt`). -/

/-- `"".join([h1, h2] if not sort_pairs else sorted([h1, h2]))`. -/
def joinPair (sp : Bool) (h1 h2 : String) : String :=
  if sp then (if pyStrLt h2 h1 then h2 ++ h1 else h1 ++ h2) else h1 ++ h2

/-- One round of `MerkleTree.build_tree`'s `while` loop: the `zip` of the even
slots with the odd slots padded by `None` pairs adjacent nodes; `if h2:` also
treats an empty-string node like the missing one, so the guard is kept. A lone
trailing node is carried up unchanged. -/
def nextLevel (hf : String → String) (sp : Bool) : List String → List String
  | [] => []
  | [h1] => [h1]
  | h1 :: h2 :: rest =>
    (if h2 ≠ "" then hf (joinPair sp h1 h2) else h1) :: nextLevel hf sp rest

/-- Each round halves the node count, rounding up. -/
theorem length_nextLevel (hf : String → String) (sp : Bool) :
    ∀ l : List String, (nextLevel hf sp l).length = (l.length + 1) / 2
  | [] => rfl
  | [_] => by simp [nextLevel]
  | _ :: _ :: rest => by
    simp only [nextLevel, List.length_cons, length_nextLevel hf sp rest]
    omega

/-- Fuel-driven core of `levelsUp`: with adequate fuel it runs the
`while len(level) > 1` loop of `build_tree` to the top. Structural in the
fuel so that the kernel can evaluate it. -/
def levelsUpGo (hf : String → String) (sp : Bool) : Nat → List String → List (List String)
  | 0, l => [l]
  | fuel + 1, l =>
    if l.length ≤ 1 then [l] else l :: levelsUpGo hf sp fuel (nextLevel hf sp l)

/-- The levels of `build_tree`, bottom-up: `[leaves, …, top]` where the top
level has at most one node. `build_tree` returns exactly this list reversed
(`tree.reverse()`), see `buildTree`. `l.length` is always adequate fuel. -/
def levelsUp (hf : String → String) (sp : Bool) (l : List String) :
    List (List String) :=
  levelsUpGo hf sp l.length l

/-- `levelsUpGo` is fuel-irrelevant once the fuel dominates the level count. -/
theorem levelsUpGo_congr (hf : String → String) (sp : Bool) :
    ∀ (f₁ f₂ : Nat) (l : List String), l.length ≤ f₁ + 1 → l.length ≤ f₂ + 1 →
      levelsUpGo hf sp f₁ l = levelsUpGo hf sp f₂ l
  | f₁, f₂, l, h₁, h₂ => by
    match f₁, f₂ with
    | 0, 0 => rfl
    | 0, g + 1 =>
      rw [levelsUpGo, levelsUpGo, if_pos (by omega)]
    | g + 1, 0 =>
      rw [levelsUpGo, levelsUpGo, if_pos (by omega)]
    | g₁ + 1, g₂ + 1 =>
      rw [levelsUpGo, levelsUpGo]
      by_cases hl : l.length ≤ 1
      · rw [if_pos hl, if_pos hl]
      · rw [if_neg hl, if_neg hl]
        have hnext : (nextLevel hf sp l).length = (l.length + 1) / 2 :=
          length_nextLevel hf sp l
        rw [levelsUpGo_congr hf sp g₁ g₂ (nextLevel hf sp l) (by omega) (by omega)]

/-- `MerkleTree.build_tree`: top-down levels, `tree[0] = [root]` for a
non-empty tree. -/
def buildTree (hf : String → String) (sp : Bool) (leaves : List String) :
    List (List String) :=
  (levelsUp hf sp leaves).reverse

/-- `MerkleTree.root = tree[0][0]`; `none` when the leaf list is empty (where
the Python indexing would fail). -/
def merkleRoot (hf : String → String) (sp : Bool) (leaves : List String) :
    Option String :=
  ((levelsUp hf sp leaves).getLastD []).head?

/-- The odd-length padding step of `MerkleTree.proof`:
`if len(level) % 2 == 1: level.append(level[-1])`. -/
def padLevel (lvl : List String) : List String :=
  if lvl.length % 2 = 1 then lvl ++ [lvl.getLastD ""] else lvl

/-- The sibling-collecting loop of `MerkleTree.proof` over the bottom-up
levels below the root: pad an odd level with its own last node, record the
sibling of the current index, halve the index. -/
def proofSteps : List (List String) → Nat → List String
  | [], _ => []
  | lvl :: rest, index =>
    let lvl' := padLevel lvl
    (if index % 2 = 1 then lvl'.getD (index - 1) "" else lvl'.getD (index + 1) "")
      :: proofSteps rest (index / 2)

/-- `MerkleTree.proof(leaf, index)` with the index given: walk
`self.tree[:0:-1]` — all levels from the leaves up, the root level excluded. -/
def merkleProof (hf : String → String) (sp : Bool) (leaves : List String)
    (index : Nat) : List String :=
  proofSteps ((levelsUp hf sp leaves).dropLast) index

/-- The `enumerate`/`break` scan of `MerkleTree.proof(leaf)`: index of the
first occurrence. -/
def firstIdxFrom (leaf : String) : List String → Option Nat
  | [] => none
  | t :: rest => if leaf = t then some 0 else (firstIdxFrom leaf rest).map (· + 1)

/-- `MerkleTree.proof(leaf)` with the index looked up; `none` models the
`LeafNotInTree` exception. -/
def merkleProofOfLeaf (hf : String → String) (sp : Bool) (leaves : List String)
    (leaf : String) : Option (List String) :=
  (firstIdxFrom leaf leaves).map (merkleProof hf sp leaves)

/-- One fold step of `MerkleTree.verify` in sorted-pair mode:
`if hash == p: continue` else `hash = hash_function("".join(sorted([hash, p])))`. -/
def verifyStep (hf : String → String) (h p : String) : String :=
  if h = p then h else hf (joinPair true h p)

/-- The sorted-pair fold of `MerkleTree.verify` over the proof list. -/
def verifySortedFold (hf : String → String) (leaf : String)
    (prf : List String) : String :=
  prf.foldl (verifyStep hf) leaf

/-- `MerkleTree.verify(proof, leaf)` with `sort_pairs=True` (the mode every
caller in the client uses): fold the proof, compare with `self.root`. -/
def merkleVerifySorted (hf : String → String) (leaves : List String)
    (prf : List String) (leaf : String) : Bool :=
  verifySortedFold hf leaf prf == (merkleRoot hf true leaves).getD ""

/-- Python `leaves.sort()`: ascending stable sort by the code-point order.
Sorted permutations under a linear order are unique, so any correct sort
models it; insertion sort is used because it is structurally recursive and
hence kernel-computable. -/
def pySort (l : List String) : List String :=
  l.insertionSort pyLe

/-- `hash_assertion_with_indexes(leaves, hash_function, sort)`: optionally
sort the statements, then hash each as
`hash_function(encode_packed(["bytes32","uint256"], [keccak(statement), i]).hex())`.
`sh` models the inner `Web3.solidity_keccak(["string"], [leaf])` rendered as
hex, `hf` the outer `hash_function`. -/
def hashAssertionWithIndexes (hf sh : String → String) (sort : Bool)
    (leaves : List String) : List String :=
  ((if sort then pySort leaves else leaves).enum).map
    (fun p => hf (sh p.2 ++ encodeUint256 p.1))

/-! ## Facts about the tree build -/

theorem levelsUp_of_le_one (hf : String → String) (sp : Bool) (l : List String)
    (h : l.length ≤ 1) : levelsUp hf sp l = [l] := by
  unfold levelsUp
  match hl : l.length with
  | 0 => rw [levelsUpGo]
  | 1 => rw [levelsUpGo, if_pos (by omega)]
  | n + 2 => omega

theorem levelsUp_of_ge_two (hf : String → String) (sp : Bool) (l : List String)
    (h : 2 ≤ l.length) : levelsUp hf sp l = l :: levelsUp hf sp (nextLevel hf sp l) := by
  unfold levelsUp
  obtain ⟨n, hn⟩ : ∃ n, l.length = n + 1 := ⟨l.length - 1, by omega⟩
  rw [hn, levelsUpGo, if_neg (by omega)]
  rw [levelsUpGo_congr hf sp n (nextLevel hf sp l).length (nextLevel hf sp l)
    (by rw [length_nextLevel]; omega) (by omega)]

theorem levelsUp_ne_nil (hf : String → String) (sp : Bool) (l : List String) :
    levelsUp hf sp l ≠ [] := by
  by_cases h : l.length ≤ 1
  · rw [levelsUp_of_le_one hf sp l h]; simp
  · rw [levelsUp_of_ge_two hf sp l (by omega)]; simp

theorem merkleRoot_singleton (hf : String → String) (sp : Bool) (v : String) :
    merkleRoot hf sp [v] = some v := by
  simp [merkleRoot, levelsUp_of_le_one hf sp [v] (by simp)]

theorem merkleRoot_step (hf : String → String) (sp : Bool) (l : List String)
    (h : 2 ≤ l.length) :
    merkleRoot hf sp l = merkleRoot hf sp (nextLevel hf sp l) := by
  unfold merkleRoot
  rw [levelsUp_of_ge_two hf sp l h, List.getLastD_cons]
  rcases h' : levelsUp hf sp (nextLevel hf sp l) with _ | ⟨x, xs⟩
  · exact absurd h' (levelsUp_ne_nil hf sp _)
  · obtain ⟨a, ha⟩ := Option.isSome_iff_exists.mp (List.getLast?_isSome.mpr (List.cons_ne_nil x xs))
    simp [List.getLastD_eq_getLast?, ha]

/-- Python's `sorted` on a two-element list does not care which order the
elements arrive in, hence neither does the sorted-pair combination. -/
theorem joinPair_true_comm (h1 h2 : String) : joinPair true h1 h2 = joinPair true h2 h1 := by
  unfold joinPair
  cases hlt : pyStrLt h2 h1
  · cases hlt2 : pyStrLt h1 h2
    · have hdata : h1.data = h2.data :=
        pyStrLtChars_eq_of_not_lt h1.data h2.data hlt2 hlt
      have he : h1 = h2 := by
        cases h1; cases h2; exact congrArg String.mk hdata
      simp [he]
    · simp [hlt2]
  · have hother : pyStrLt h1 h2 = false :=
      pyStrLtChars_asymm h2.data h1.data hlt
    simp [hlt, hother]

/-- No node of any level is the empty string (Python's `if h2:` then behaves
as a pure presence test). Decidable so that a concrete run can check it. -/
def noEmptyLevels (levels : List (List String)) : Bool :=
  levels.all (fun lvl => lvl.all (fun h => h != ""))

/-- No two nodes paired by the build are equal, so `verify`'s
`if hash == p: continue` fires exactly at the odd-node duplications of
`proof`. Keccak-256 collisions aside this always holds; decidable so that a
concrete run can check it. -/
def adjacentOk : List String → Bool
  | h1 :: h2 :: rest => (h1 != h2) && adjacentOk rest
  | _ => true

/-- `adjacentOk` at every level of the tree. -/
def adjacentDistinct (levels : List (List String)) : Bool :=
  levels.all adjacentOk

/-- `getLastD` of a non-empty list ignores the default. -/
theorem getLastD_congr {α : Type} (l : List α) (hl : l ≠ []) (d₁ d₂ : α) :
    l.getLastD d₁ = l.getLastD d₂ := by
  obtain ⟨a, ha⟩ := Option.isSome_iff_exists.mp (List.getLast?_isSome.mpr hl)
  simp [List.getLastD_eq_getLast?, ha]

/-- Padding a level commutes with peeling one already-complete pair. -/
theorem padLevel_cons₂ (h1 h2 : String) (rest : List String) (hr : rest ≠ []) :
    padLevel (h1 :: h2 :: rest) = h1 :: h2 :: padLevel rest := by
  have hlast : (h1 :: h2 :: rest).getLastD "" = rest.getLastD "" := by
    rw [List.getLastD_cons, List.getLastD_cons]
    exact getLastD_congr rest hr _ _
  unfold padLevel
  by_cases hp : rest.length % 2 = 1
  · rw [if_pos (show (h1 :: h2 :: rest).length % 2 = 1 by
        simp only [List.length_cons]; omega), if_pos hp, hlast, List.cons_append,
      List.cons_append]
  · rw [if_neg (show ¬(h1 :: h2 :: rest).length % 2 = 1 by
        simp only [List.length_cons]; omega), if_neg hp]

/-- One verification fold step recovers the parent node: the sibling recorded
by `proof` at the current index combines with (or, at an odd duplication,
skips past) the current hash to give the node right above it. -/
theorem verifyStep_to_nextLevel (hf : String → String) :
    ∀ (P : List String) (index : Nat), index < P.length →
    P.all (fun h => h != "") = true → adjacentOk P = true →
    verifyStep hf (P.getD index "")
      (if index % 2 = 1 then (padLevel P).getD (index - 1) ""
       else (padLevel P).getD (index + 1) "")
      = (nextLevel hf true P).getD (index / 2) ""
  | [], _, hidx, _, _ => absurd hidx (by simp)
  | [h1], 0, _, _, _ => by
    simp [padLevel, verifyStep, nextLevel]
  | [h1], (n + 1), hidx, _, _ => by simp at hidx
  | h1 :: h2 :: rest, 0, _, hne, hadj => by
    have hh2 : h2 ≠ "" := by
      simp only [List.all_cons, Bool.and_eq_true, bne_iff_ne, ne_eq] at hne
      exact hne.2.1
    have h12 : h1 ≠ h2 := by
      simp only [adjacentOk, Bool.and_eq_true, bne_iff_ne, ne_eq] at hadj
      exact hadj.1
    have hsib : (padLevel (h1 :: h2 :: rest)).getD 1 "" = h2 := by
      unfold padLevel
      by_cases hp : (h1 :: h2 :: rest).length % 2 = 1
      · rw [if_pos hp, List.cons_append, List.cons_append]
        rfl
      · rw [if_neg hp]
        rfl
    rw [if_neg (show ¬((0 : Nat) % 2 = 1) by omega),
      show (0 : Nat) + 1 = 1 from rfl, hsib,
      show (h1 :: h2 :: rest).getD 0 "" = h1 from rfl,
      show (0 : Nat) / 2 = 0 from rfl]
    rw [verifyStep, if_neg h12]
    simp [nextLevel, hh2]
  | h1 :: h2 :: rest, 1, _, hne, hadj => by
    have hh2 : h2 ≠ "" := by
      simp only [List.all_cons, Bool.and_eq_true, bne_iff_ne, ne_eq] at hne
      exact hne.2.1
    have h12 : h1 ≠ h2 := by
      simp only [adjacentOk, Bool.and_eq_true, bne_iff_ne, ne_eq] at hadj
      exact hadj.1
    have hsib : (padLevel (h1 :: h2 :: rest)).getD 0 "" = h1 := by
      unfold padLevel
      by_cases hp : (h1 :: h2 :: rest).length % 2 = 1
      · rw [if_pos hp, List.cons_append]
        rfl
      · rw [if_neg hp]
        rfl
    rw [if_pos (show (1 : Nat) % 2 = 1 from rfl),
      show (1 : Nat) - 1 = 0 from rfl, hsib,
      show (h1 :: h2 :: rest).getD 1 "" = h2 from rfl,
      show (1 : Nat) / 2 = 0 from rfl]
    rw [verifyStep, if_neg (Ne.symm h12), joinPair_true_comm]
    simp [nextLevel, hh2]
  | h1 :: h2 :: rest, (k + 2), hidx, hne, hadj => by
    have hk : k < rest.length := by
      simp only [List.length_cons] at hidx; omega
    have hrest : rest ≠ [] := by
      intro h; rw [h] at hk; simp at hk
    have hne' : rest.all (fun h => h != "") = true := by
      simp only [List.all_cons, Bool.and_eq_true] at hne
      exact hne.2.2
    have hadj' : adjacentOk rest = true := by
      simp only [adjacentOk, Bool.and_eq_true] at hadj
      exact hadj.2
    have ih := verifyStep_to_nextLevel hf rest k hk hne' hadj'
    rw [padLevel_cons₂ h1 h2 rest hrest]
    have hsib : (if (k + 2) % 2 = 1 then (h1 :: h2 :: padLevel rest).getD (k + 2 - 1) ""
        else (h1 :: h2 :: padLevel rest).getD (k + 2 + 1) "")
        = (if k % 2 = 1 then (padLevel rest).getD (k - 1) ""
           else (padLevel rest).getD (k + 1) "") := by
      by_cases hp : k % 2 = 1
      · rw [if_pos (show (k + 2) % 2 = 1 by omega), if_pos hp,
          show k + 2 - 1 = k - 1 + 1 + 1 by omega, List.getD_cons_succ,
          List.getD_cons_succ]
      · rw [if_neg (show ¬(k + 2) % 2 = 1 by omega), if_neg hp,
          show k + 2 + 1 = k + 1 + 1 + 1 by omega, List.getD_cons_succ,
          List.getD_cons_succ]
    rw [hsib]
    rw [show (h1 :: h2 :: rest).getD (k + 2) "" = rest.getD k "" from rfl,
      show (k + 2) / 2 = k / 2 + 1 by omega]
    rw [show (nextLevel hf true (h1 :: h2 :: rest)).getD (k / 2 + 1) ""
        = (nextLevel hf true rest).getD (k / 2) "" from rfl]
    exact ih

/-- Climbing the proof: folding the recorded siblings from a leaf reproduces
the root, provided no level pairs two equal nodes (`adjacentDistinct`) and no
node is the empty string (`noEmptyLevels`). -/
theorem verify_climb (hf : String → String) (P : List String) (index : Nat)
    (hidx : index < P.length)
    (hne : noEmptyLevels (levelsUp hf true P) = true)
    (hadj : adjacentDistinct (levelsUp hf true P) = true) :
    verifySortedFold hf (P.getD index "")
      (proofSteps ((levelsUp hf true P).dropLast) index)
      = (merkleRoot hf true P).getD "" := by
  by_cases hlen : P.length ≤ 1
  · rcases P with _ | ⟨v, rest⟩
    · simp at hidx
    · have hrest : rest = [] := by
        simp only [List.length_cons, List.length_nil] at hlen
        exact List.eq_nil_of_length_eq_zero (by omega)
      subst hrest
      have h0 : index = 0 := by
        simp only [List.length_cons, List.length_nil] at hidx; omega
      subst h0
      rw [levelsUp_of_le_one hf true [v] (by simp)]
      simp [proofSteps, verifySortedFold, merkleRoot_singleton]
  · have hlen2 : 2 ≤ P.length := by omega
    rw [levelsUp_of_ge_two hf true P hlen2] at hne hadj ⊢
    rcases h' : levelsUp hf true (nextLevel hf true P) with _ | ⟨L1, Ls⟩
    · exact absurd h' (levelsUp_ne_nil hf true _)
    · rw [List.dropLast_cons₂]
      simp only [proofSteps, verifySortedFold, List.foldl_cons]
      have hneP : P.all (fun h => h != "") = true := by
        simp only [noEmptyLevels, List.all_cons, Bool.and_eq_true] at hne
        exact hne.1
      have hadjP : adjacentOk P = true := by
        simp only [adjacentDistinct, List.all_cons, Bool.and_eq_true] at hadj
        exact hadj.1
      rw [show verifyStep hf (P.getD index "")
            (if index % 2 = 1 then (padLevel P).getD (index - 1) ""
             else (padLevel P).getD (index + 1) "")
          = (nextLevel hf true P).getD (index / 2) ""
          from verifyStep_to_nextLevel hf P index hidx hneP hadjP]
      have hidx' : index / 2 < (nextLevel hf true P).length := by
        rw [length_nextLevel]; omega
      have hne' : noEmptyLevels (levelsUp hf true (nextLevel hf true P)) = true := by
        simp only [noEmptyLevels, List.all_cons, Bool.and_eq_true] at hne ⊢
        exact hne.2
      have hadj' : adjacentDistinct (levelsUp hf true (nextLevel hf true P)) = true := by
        simp only [adjacentDistinct, List.all_cons, Bool.and_eq_true] at hadj ⊢
        exact hadj.2
      have ih := verify_climb hf (nextLevel hf true P) (index / 2) hidx' hne' hadj'
      rw [h'] at ih
      unfold verifySortedFold at ih
      rw [ih, merkleRoot_step hf true P hlen2]
termination_by P.length
decreasing_by simp only [length_nextLevel]; omega

/-- The `enumerate`/`break` scan finds the first occurrence of a present
leaf: a valid in-range index holding that value. -/
theorem firstIdxFrom_mem (v : String) : ∀ (l : List String), v ∈ l →
    ∃ i, firstIdxFrom v l = some i ∧ i < l.length ∧ l.getD i "" = v
  | [], h => absurd h (by simp)
  | t :: rest, h => by
    by_cases he : v = t
    · exact ⟨0, by simp [firstIdxFrom, he], by simp, by simp [he]⟩
    · have hm : v ∈ rest := by
        rcases List.mem_cons.mp h with h' | h'
        · exact absurd h' he
        · exact h'
      obtain ⟨i, h1, h2, h3⟩ := firstIdxFrom_mem v rest hm
      exact ⟨i + 1, by simp [firstIdxFrom, he, h1], by simpa using h2,
        by simpa using h3⟩

/-- C1: for every non-empty statement list, building the `MerkleTree` over
`hash_assertion_with_indexes` output in `sort_pairs=True` mode and then, for
each leaf, generating its proof with `MerkleTree.proof` and checking it with
`MerkleTree.verify` succeeds against the tree's root — including leaf counts
that are not powers of two, where `proof` duplicates the last node of an
odd-length level while `build_tree` carries it up unchanged. The two `true`
hypotheses state that the run of the hash function at hand produced no empty
digest and no colliding paired siblings (certain for Keccak-256 digests,
checkable for any concrete run). -/
theorem merkleProof_verifies (hf sh : String → String) (L : List String)
    (v : String) (hv : v ∈ hashAssertionWithIndexes hf sh true L)
    (hne : noEmptyLevels (levelsUp hf true (hashAssertionWithIndexes hf sh true L)) = true)
    (hadj : adjacentDistinct (levelsUp hf true (hashAssertionWithIndexes hf sh true L)) = true) :
    ∃ prf, merkleProofOfLeaf hf true (hashAssertionWithIndexes hf sh true L) v = some prf
      ∧ merkleVerifySorted hf (hashAssertionWithIndexes hf sh true L) prf v = true := by
  obtain ⟨i, hFind, hlt, hGet⟩ :=
    firstIdxFrom_mem v (hashAssertionWithIndexes hf sh true L) hv
  refine ⟨merkleProof hf true (hashAssertionWithIndexes hf sh true L) i, ?_, ?_⟩
  · rw [merkleProofOfLeaf, hFind, Option.map_some']
  · unfold merkleVerifySorted merkleProof
    rw [← hGet, verify_climb hf (hashAssertionWithIndexes hf sh true L) i hlt hne hadj]
    exact beq_self_eq_true _

/-- An injective stand-in for `solidity_keccak256` used to instantiate the
abstract `hash_function` on concrete runs. -/
def tagHash (s : String) : String := "(" ++ s ++ ")"

/-- An injective stand-in for the inner statement keccak used to instantiate
`sh` on concrete runs. -/
def tagKeccak (s : String) : String := "[" ++ s ++ "]"

/-- Witness for C1 on the three-statement list `["b", "a", "c"]` (odd leaf
count) at leaf index 2. -/
theorem merkleProof_verifies_witness :
    ((hashAssertionWithIndexes tagHash tagKeccak true ["b", "a", "c"]).getD 2 ""
        ∈ hashAssertionWithIndexes tagHash tagKeccak true ["b", "a", "c"])
    ∧ noEmptyLevels (levelsUp tagHash true
        (hashAssertionWithIndexes tagHash tagKeccak true ["b", "a", "c"])) = true
    ∧ adjacentDistinct (levelsUp tagHash true
        (hashAssertionWithIndexes tagHash tagKeccak true ["b", "a", "c"])) = true
    ∧ ∃ prf, merkleProofOfLeaf tagHash true
          (hashAssertionWithIndexes tagHash tagKeccak true ["b", "a", "c"])
          ((hashAssertionWithIndexes tagHash tagKeccak true ["b", "a", "c"]).getD 2 "")
          = some prf
        ∧ merkleVerifySorted tagHash
            (hashAssertionWithIndexes tagHash tagKeccak true ["b", "a", "c"]) prf
            ((hashAssertionWithIndexes tagHash tagKeccak true ["b", "a", "c"]).getD 2 "")
            = true :=
  ⟨by decide, by decide, by decide,
    merkleProof_verifies tagHash tagKeccak ["b", "a", "c"] _
      (by decide) (by decide) (by decide)⟩

/-- C10: a `MerkleTree` built from exactly one leaf has that leaf hash itself
as its root: the `while` loop of `build_tree` never runs, so no hash function
application occurs and the root is the leaf unchanged — not `H(leaf)` and not
`H(leaf ‖ leaf)`. Stated for every hash function and both pair modes. -/
theorem merkleRoot_single_leaf (hf : String → String) (sp : Bool) (v : String) :
    buildTree hf sp [v] = [[v]] ∧ merkleRoot hf sp [v] = some v := by
  constructor
  · rw [buildTree, levelsUp_of_le_one hf sp [v] (by simp)]
    rfl
  · exact merkleRoot_singleton hf sp v

/-! ## Position salting (C8) -/

/-- Swapping the entries at two positions, as a Python
`L[i], L[j] = L[j], L[i]` would. -/
def listSwap (l : List String) (i j : Nat) : List String :=
  (l.set i (l.getD j "")).set j (l.getD i "")

/-- Reading off one leaf hash of `hash_assertion_with_indexes` with sorting
disabled: position `i` holds `hf (sh statement ++ encodeUint256 i)`. -/
theorem hashAssertionWithIndexes_getD (hf sh : String → String) (L : List String)
    (i : Nat) (hi : i < L.length) :
    (hashAssertionWithIndexes hf sh false L).getD i ""
      = hf (sh (L.getD i "") ++ encodeUint256 i) := by
  unfold hashAssertionWithIndexes
  simp only [Bool.false_eq_true, if_false]
  have hlen : i < (L.enum.map (fun p => hf (sh p.2 ++ encodeUint256 p.1))).length := by
    simpa using hi
  rw [List.getD_eq_getElem?_getD, List.getElem?_eq_getElem hlen]
  simp [List.getElem_enum, List.getD_eq_getElem?_getD, List.getElem?_eq_getElem hi]

/-- Strings are equal when their character lists are. -/
theorem string_eq_of_data (a b : String) (h : a.data = b.data) : a = b := by
  cases a; cases b; exact congrArg String.mk h

/-- C8: the leaf hash at position `i` is `H(H(statement) ‖ encode(i))` with the
fixed-width positional encoding, so — for injective hash functions — hashing
with sorting disabled after swapping two distinct statements yields a leaf-hash
list differing from the original (at position `i`), even though the set of
statements is unchanged. -/
theorem position_salting (hf sh : String → String)
    (hfInj : Function.Injective hf) (shInj : Function.Injective sh)
    (L : List String) (i j : Nat) (hi : i < L.length) (hj : j < L.length)
    (hij : i ≠ j) (hstmt : L.getD i "" ≠ L.getD j "") :
    (hashAssertionWithIndexes hf sh false L).getD i ""
        = hf (sh (L.getD i "") ++ encodeUint256 i)
    ∧ hashAssertionWithIndexes hf sh false (listSwap L i j)
        ≠ hashAssertionWithIndexes hf sh false L := by
  refine ⟨hashAssertionWithIndexes_getD hf sh L i hi, fun hEq => ?_⟩
  have hswi : i < (listSwap L i j).length := by
    simp only [listSwap, List.length_set]
    exact hi
  have hswget : (listSwap L i j).getD i "" = L.getD j "" := by
    unfold listSwap
    rw [List.getD_eq_getElem?_getD, List.getElem?_eq_getElem (by simpa using hi),
      Option.getD_some, List.getElem_set_ne (Ne.symm hij), List.getElem_set_self,
      List.getD_eq_getElem?_getD, List.getElem?_eq_getElem hj, Option.getD_some]
  have hx : (hashAssertionWithIndexes hf sh false (listSwap L i j)).getD i ""
      = (hashAssertionWithIndexes hf sh false L).getD i "" := by rw [hEq]
  rw [hashAssertionWithIndexes_getD hf sh (listSwap L i j) i hswi,
    hashAssertionWithIndexes_getD hf sh L i hi, hswget] at hx
  have harg := hfInj hx
  have hdata : (sh (L.getD j "")).data ++ (encodeUint256 i).data
      = (sh (L.getD i "")).data ++ (encodeUint256 i).data := by
    have := congrArg String.data harg
    simpa [String.data_append] using this
  have hsh : sh (L.getD j "") = sh (L.getD i "") :=
    string_eq_of_data _ _ (List.append_inj' hdata rfl).1
  exact hstmt (shInj hsh).symm

/-- The parenthesis-tagging stand-in hash is injective. -/
theorem tagHash_injective : Function.Injective tagHash := by
  intro a b h
  have hd : a.data ++ [')'] = b.data ++ [')'] := by
    have h2 := congrArg String.data h
    simp only [tagHash, String.data_append] at h2
    rw [List.append_assoc, List.append_assoc] at h2
    exact (List.append_inj h2 rfl).2
  exact string_eq_of_data a b (List.append_inj' hd rfl).1

/-- The bracket-tagging stand-in statement hash is injective. -/
theorem tagKeccak_injective : Function.Injective tagKeccak := by
  intro a b h
  have hd : a.data ++ [']'] = b.data ++ [']'] := by
    have h2 := congrArg String.data h
    simp only [tagKeccak, String.data_append] at h2
    rw [List.append_assoc, List.append_assoc] at h2
    exact (List.append_inj h2 rfl).2
  exact string_eq_of_data a b (List.append_inj' hd rfl).1

/-- Witness for C8: swapping `"x"` and `"z"` in `["x", "y", "z"]` (positions 0
and 2) changes the unsorted leaf-hash list. -/
theorem position_salting_witness :
    (hashAssertionWithIndexes tagHash tagKeccak false ["x", "y", "z"]).getD 0 ""
        = tagHash (tagKeccak (["x", "y", "z"].getD 0 "") ++ encodeUint256 0)
    ∧ hashAssertionWithIndexes tagHash tagKeccak false (listSwap ["x", "y", "z"] 0 2)
        ≠ hashAssertionWithIndexes tagHash tagKeccak false ["x", "y", "z"] :=
  position_salting tagHash tagKeccak tagHash_injective tagKeccak_injective
    ["x", "y", "z"] 0 2 (by decide) (by decide) (by decide) (by decide)

/-! ## State resolution in KnowledgeAsset.get (src/dkg/asset.py)

The on-chain getters `_get_unfinalized_state`, `_get_latest_assertion_id` and
`_get_assertion_ids` are modelled as the fields of `ChainEnv`, holding the
`Web3.to_hex` renderings that `KnowledgeAsset.get` works with. -/

/-- `web3.constants.HASH_ZERO`. -/
def HASH_ZERO : String :=
  "0x0000000000000000000000000000000000000000000000000000000000000000"

/-- The chain state visible to `KnowledgeAsset.get` for one token. -/
structure ChainEnv where
  unfinalizedState : String
  latestAssertionId : String
  assertionIds : List String

/-- The `state` argument of `KnowledgeAsset.get`: a Python `str` or `int`. -/
inductive StateArg where
  | str (s : String)
  | int (i : Int)

/-- The raised `InvalidStateOption` exception, message included. -/
inductive ResolveError where
  | invalidStateOption (msg : String)
deriving DecidableEq

/-- The regex gate `^0x[a-fA-F0-9]{64}$` used in `KnowledgeAsset.get`. -/
def isHex64 (s : String) : Bool :=
  match s.data with
  | '0' :: 'x' :: rest =>
    rest.length = 64 && rest.all (fun c =>
      (('0' ≤ c && c ≤ '9') || ('a' ≤ c && c ≤ 'f') || ('A' ≤ c && c ≤ 'F')))
  | _ => false

/-- The normalization at the top of `KnowledgeAsset.get`:
`state.upper() if isinstance(state, str) and not re.match(hex, state) else state`. -/
def normalizeState : StateArg → StateArg
  | .str s => if isHex64 s then .str s else .str (pyUpper s)
  | .int i => .int i

/-- `handle_latest_finalized_state`: the latest assertion id, finalized. -/
def handleLatestFinalizedState (env : ChainEnv) : String × Bool :=
  (env.latestAssertionId, true)

/-- `handle_latest_state`: a present (`if unfinalized_state`, i.e. non-empty)
and non-`HASH_ZERO` unfinalized slot wins with `is_state_finalized = False`;
otherwise fall back to the latest finalized state. -/
def handleLatestState (env : ChainEnv) : String × Bool :=
  if env.unfinalizedState ≠ "" ∧ env.unfinalizedState ≠ HASH_ZERO then
    (env.unfinalizedState, false)
  else handleLatestFinalizedState env

/-- The `match state` dispatch of `KnowledgeAsset.get`, returning
`(public_assertion_id, is_state_finalized)` or raising `InvalidStateOption`. -/
def resolveState (env : ChainEnv) (state : StateArg) :
    Except ResolveError (String × Bool) :=
  match normalizeState state with
  | .str s =>
    if s = "LATEST" then .ok (handleLatestState env)
    else if s = "LATEST_FINALIZED" then .ok (handleLatestFinalizedState env)
    else if isHex64 s then
      if s ∈ env.assertionIds then
        .ok (s, s = env.assertionIds.getLastD "")
      else
        .error (.invalidStateOption
          ("Given state hash: " ++ s ++ " is not a part of the KA."))
    else .error (.invalidStateOption ("Invalid state option: " ++ s ++ "."))
  | .int i =>
    if 0 ≤ i ∧ i < (env.assertionIds.length : Int) then
      .ok (env.assertionIds.getD i.toNat "",
        i = (env.assertionIds.length : Int) - 1)
    else
      .error (.invalidStateOption
        ("State index " ++ toString i ++ " is out of range."))

/-- C3: resolving the `LATEST` selector returns the unfinalized-state
fingerprint with `isFinalized = false` whenever the unfinalized slot is
present (non-empty rendering) and non-zero, and otherwise the latest entry of
the finalized-state history with `isFinalized = true`. -/
theorem resolve_latest_state (env : ChainEnv) :
    (env.unfinalizedState ≠ "" ∧ env.unfinalizedState ≠ HASH_ZERO →
      resolveState env (.str "LATEST") = .ok (env.unfinalizedState, false))
    ∧ (env.unfinalizedState = "" ∨ env.unfinalizedState = HASH_ZERO →
      resolveState env (.str "LATEST") = .ok (env.latestAssertionId, true)) := by
  have hre : resolveState env (.str "LATEST") = .ok (handleLatestState env) := rfl
  constructor
  · intro h
    rw [hre]
    unfold handleLatestState
    rw [if_pos h]
  · intro h
    rw [hre]
    unfold handleLatestState handleLatestFinalizedState
    rw [if_neg (fun hc => h.elim (fun he => hc.1 he) (fun he => hc.2 he))]

/-- Witness for C3: both the unfinalized branch and the fallback branch at
concrete chain states. -/
theorem resolve_latest_state_witness :
    (resolveState ⟨"0xabc1", "0xfinal", ["0xfinal"]⟩ (.str "LATEST")
      = .ok ("0xabc1", false))
    ∧ (resolveState ⟨HASH_ZERO, "0xfinal", ["0xfinal"]⟩ (.str "LATEST")
      = .ok ("0xfinal", true)) :=
  ⟨(resolve_latest_state ⟨"0xabc1", "0xfinal", ["0xfinal"]⟩).1 (by decide),
    (resolve_latest_state ⟨HASH_ZERO, "0xfinal", ["0xfinal"]⟩).2 (by decide)⟩

/-- C4: an integer selector `i` against a history of length `n` resolves to
the `i`-th fingerprint when `0 ≤ i < n`, finalized exactly when `i = n - 1`
(so selector 0 of a two-state asset is unfinalized), and raises
`InvalidStateOption` outside `[0, n)`. -/
theorem resolve_int_state (env : ChainEnv) (i : Int) :
    (0 ≤ i ∧ i < (env.assertionIds.length : Int) →
      resolveState env (.int i)
        = .ok (env.assertionIds.getD i.toNat "",
            i = (env.assertionIds.length : Int) - 1))
    ∧ (¬(0 ≤ i ∧ i < (env.assertionIds.length : Int)) →
      resolveState env (.int i)
        = .error (.invalidStateOption
            ("State index " ++ toString i ++ " is out of range."))) := by
  have hre : resolveState env (.int i)
      = if 0 ≤ i ∧ i < (env.assertionIds.length : Int) then
          .ok (env.assertionIds.getD i.toNat "",
            i = (env.assertionIds.length : Int) - 1)
        else
          .error (.invalidStateOption
            ("State index " ++ toString i ++ " is out of range.")) := rfl
  constructor
  · intro h
    rw [hre, if_pos h]
  · intro h
    rw [hre, if_neg h]

/-- Witness for C4 on a two-state asset: selector 0 resolves unfinalized,
selector 5 is rejected. -/
theorem resolve_int_state_witness :
    (resolveState ⟨"", "0xb", ["0xa", "0xb"]⟩ (.int 0) = .ok ("0xa", false))
    ∧ (resolveState ⟨"", "0xb", ["0xa", "0xb"]⟩ (.int 5)
        = .error (.invalidStateOption "State index 5 is out of range.")) :=
  ⟨(resolve_int_state ⟨"", "0xb", ["0xa", "0xb"]⟩ 0).1 (by decide),
    (resolve_int_state ⟨"", "0xb", ["0xa", "0xb"]⟩ 5).2 (by decide)⟩

/-- The raised `InvalidKnowledgeAsset` exception of `KnowledgeAsset.get`,
carrying the claimed state id and the recomputed Merkle root (the two values
interpolated into its message). -/
inductive GetValidationError where
  | invalidKnowledgeAsset (state merkleTreeRoot : String)
deriving DecidableEq

/-- The `if validate:` integrity check of `KnowledgeAsset.get`: recompute
`MerkleTree(hash_assertion_with_indexes(public_assertion), sort_pairs=True).root`
and raise `InvalidKnowledgeAsset` if it differs from `public_assertion_id`. -/
def validateAssertionStep (hf sh : String → String) (validate : Bool)
    (assertion : List String) (claimedId : String) :
    Except GetValidationError Unit :=
  if validate then
    let root := (merkleRoot hf true
      (hashAssertionWithIndexes hf sh true assertion)).getD ""
    if root ≠ claimedId then .error (.invalidKnowledgeAsset claimedId root)
    else .ok ()
  else .ok ()

/-- C5: with validation enabled (the default `validate=True`), the fetched
statement list is re-hashed in the identical mode; the check passes silently
exactly when the recomputed root equals the claimed fingerprint, and
otherwise raises `InvalidKnowledgeAsset` carrying both values. -/
theorem validate_assertion_integrity (hf sh : String → String)
    (assertion : List String) (claimedId : String) :
    (validateAssertionStep hf sh true assertion claimedId = .ok ()
      ↔ (merkleRoot hf true
          (hashAssertionWithIndexes hf sh true assertion)).getD "" = claimedId)
    ∧ ((merkleRoot hf true
          (hashAssertionWithIndexes hf sh true assertion)).getD "" ≠ claimedId →
        validateAssertionStep hf sh true assertion claimedId
          = .error (.invalidKnowledgeAsset claimedId
              ((merkleRoot hf true
                (hashAssertionWithIndexes hf sh true assertion)).getD ""))) := by
  unfold validateAssertionStep
  by_cases h : (merkleRoot hf true
      (hashAssertionWithIndexes hf sh true assertion)).getD "" = claimedId
  · constructor
    · simp [h]
    · exact fun hc => absurd h hc
  · constructor
    · simp [h]
    · intro _
      simp [h]

/-- Witness for C5: the singleton statement list `["s"]` passes against its
own recomputed root and is rejected against `"0xdead"`, with both values
carried in the error. -/
theorem validate_assertion_integrity_witness :
    (validateAssertionStep tagHash tagKeccak true ["s"]
        ((merkleRoot tagHash true
          (hashAssertionWithIndexes tagHash tagKeccak true ["s"])).getD "")
      = .ok ())
    ∧ (validateAssertionStep tagHash tagKeccak true ["s"] "0xdead"
      = .error (.invalidKnowledgeAsset "0xdead"
          ((merkleRoot tagHash true
            (hashAssertionWithIndexes tagHash tagKeccak true ["s"])).getD ""))) :=
  ⟨(validate_assertion_integrity tagHash tagKeccak ["s"] _).1.mpr rfl,
    (validate_assertion_integrity tagHash tagKeccak ["s"] "0xdead").2 (by decide)⟩

/-! ## Operation polling (src/dkg/utils/node_request.py, decorators.py)

`get_operation_result` fetches `{status, data}` from the node, runs
`validate_operation_status`, and is wrapped in
`@retry(catch=OperationNotFinished, max_retries=5, base_delay=1, backoff=2)`.
The successive node responses are modelled as a function `attempts : Nat →
OpResult`; the runner also reports how many attempts were consumed and the
slept delays, so that retry-count and backoff claims are statable. -/

/-- One node response to `get_operation_result`: the `status` string and the
error payload used when the status is `FAILED`. -/
structure OpResult where
  status : String
  errorType : String
  errorMessage : String

/-- The exceptions of the polling path: `OperationNotFinished` (caught and
retried), `OperationFailed` (terminal, message carries the remote error type
and message), and `NodeRequestError` (budget exhausted). -/
inductive PollError where
  | operationNotFinished
  | operationFailed (msg : String)
  | nodeRequestError (msg : String)
deriving DecidableEq

/-- The string-valued members of the `OperationStatus` enum; only these parse
in `OperationStatus(operation_result["status"])`, anything else raises
`ValueError`, which `validate_operation_status` converts to
`OperationNotFinished`. -/
def knownStatusStrings : List String :=
  ["PENDING", "FAILED", "COMPLETED",
   "FIND_NODES_START", "FIND_NODES_END",
   "FIND_NODES_LOCAL_START", "FIND_NODES_LOCAL_END",
   "FIND_NODES_OPEN_CONNECTION_START", "FIND_NODES_OPEN_CONNECTION_END",
   "FIND_NODES_CREATE_STREAM_START", "FIND_NODES_CREATE_STREAM_END",
   "FIND_NODES_SEND_MESSAGE_START", "FIND_NODES_SEND_MESSAGE_END",
   "DIAL_PROTOCOL_START", "DIAL_PROTOCOL_END"]

/-- `validate_operation_status`: `COMPLETED` returns, `FAILED` raises
`OperationFailed` with the remote error type and message interpolated, every
other known status and every unrecognized status string raises
`OperationNotFinished`. -/
def validateOperationStatus (r : OpResult) : Except PollError Unit :=
  if r.status ∈ knownStatusStrings then
    if r.status = "COMPLETED" then .ok ()
    else if r.status = "FAILED" then
      .error (.operationFailed
        ("Operation failed! " ++ r.errorType ++ ": " ++ r.errorMessage ++ "."))
    else .error .operationNotFinished
  else .error .operationNotFinished

/-- One attempt of the decorated `get_operation_result`: fetch the `i`-th
node response, validate its status, return it on success. -/
def getOperationAttempt (attempts : Nat → OpResult) (i : Nat) :
    Except PollError OpResult :=
  match validateOperationStatus (attempts i) with
  | .ok _ => .ok (attempts i)
  | .error e => .error e

/-- Does the `except catch:` clause of `retry` catch this error?
(`catch = OperationNotFinished`.) -/
def isOperationNotFinished : PollError → Bool
  | .operationNotFinished => true
  | _ => false

/-- The `for _ in range(max_retries)` loop of the `retry` decorator: run the
wrapped function; return its value; on a caught exception sleep `delay` and
multiply `delay` by `backoff`; propagate any other exception unchanged; after
the loop raise `NodeRequestError`. Returns the outcome, the number of
attempts consumed, and the slept delays in order. -/
def retryLoop {α : Type} (catchP : PollError → Bool)
    (f : Nat → Except PollError α) (backoff : ℚ) (funcName : String)
    (maxRetries : Nat) :
    Nat → Nat → ℚ → List ℚ → Except PollError α × Nat × List ℚ
  | 0, i, _, sleeps =>
    (.error (.nodeRequestError ("Failed executing " ++ funcName ++ " after "
      ++ toString maxRetries ++ " retries.")), i, sleeps.reverse)
  | k + 1, i, delay, sleeps =>
    match f i with
    | .ok a => (.ok a, i + 1, sleeps.reverse)
    | .error e =>
      if catchP e then
        retryLoop catchP f backoff funcName maxRetries k (i + 1) (delay * backoff)
          (delay :: sleeps)
      else (.error e, i + 1, sleeps.reverse)

/-- `@retry(catch, max_retries, base_delay, backoff)` applied to `f`. -/
def retryRun {α : Type} (catchP : PollError → Bool)
    (f : Nat → Except PollError α) (maxRetries : Nat) (baseDelay backoff : ℚ)
    (funcName : String) : Except PollError α × Nat × List ℚ :=
  retryLoop catchP f backoff funcName maxRetries maxRetries 0 baseDelay []

/-- `KnowledgeAsset.get_operation_result` with its decorator arguments
(`max_retries=5, base_delay=1, backoff=2`). -/
def getOperationResult (attempts : Nat → OpResult) :
    Except PollError OpResult × Nat × List ℚ :=
  retryRun isOperationNotFinished (getOperationAttempt attempts) 5 1 2
    "get_operation_result"

/-- A non-terminal response — any status other than `COMPLETED` and `FAILED`,
known to the enum or not — validates to `OperationNotFinished`. -/
theorem validateOperationStatus_nonTerminal (r : OpResult)
    (hc : r.status ≠ "COMPLETED") (hfaild : r.status ≠ "FAILED") :
    validateOperationStatus r = .error .operationNotFinished := by
  unfold validateOperationStatus
  by_cases hk : r.status ∈ knownStatusStrings
  · rw [if_pos hk, if_neg hc, if_neg hfaild]
  · rw [if_neg hk]

/-- A `FAILED` response validates to `OperationFailed` carrying the remote
error type and message. -/
theorem validateOperationStatus_failed (r : OpResult)
    (h : r.status = "FAILED") :
    validateOperationStatus r = .error (.operationFailed
      ("Operation failed! " ++ r.errorType ++ ": " ++ r.errorMessage ++ ".")) := by
  unfold validateOperationStatus
  rw [h, if_pos (by decide), if_neg (by decide), if_pos rfl]

/-- Running the retry loop over nothing but non-terminal responses consumes
every remaining attempt, sleeps the geometrically backed-off delays, and ends
in `NodeRequestError`. -/
theorem retryLoop_allNonTerminal (attempts : Nat → OpResult) (backoff : ℚ)
    (funcName : String) (maxRetries : Nat) :
    ∀ (rem i : Nat) (delay : ℚ) (sleeps : List ℚ),
    (∀ j, j < rem → (attempts (i + j)).status ≠ "COMPLETED"
      ∧ (attempts (i + j)).status ≠ "FAILED") →
    retryLoop isOperationNotFinished (getOperationAttempt attempts) backoff
        funcName maxRetries rem i delay sleeps
      = (.error (.nodeRequestError ("Failed executing " ++ funcName ++ " after "
          ++ toString maxRetries ++ " retries.")),
         i + rem,
         sleeps.reverse ++ (List.range rem).map (fun j => delay * backoff ^ j))
  | 0, i, delay, sleeps, _ => by simp [retryLoop]
  | rem + 1, i, delay, sleeps, h => by
    have h0 := h 0 (by omega)
    rw [Nat.add_zero] at h0
    have hatt : getOperationAttempt attempts i = .error .operationNotFinished := by
      unfold getOperationAttempt
      rw [validateOperationStatus_nonTerminal (attempts i) h0.1 h0.2]
    rw [retryLoop, hatt]
    show retryLoop isOperationNotFinished (getOperationAttempt attempts) backoff
        funcName maxRetries rem (i + 1) (delay * backoff) (delay :: sleeps) = _
    rw [retryLoop_allNonTerminal attempts backoff funcName maxRetries rem (i + 1)
      (delay * backoff) (delay :: sleeps)
      (fun j hj => by
        have := h (j + 1) (by omega)
        rwa [show i + (j + 1) = i + 1 + j by omega] at this)]
    refine congrArg (Prod.mk _) (congrArg₂ Prod.mk (by omega) ?_)
    rw [List.reverse_cons, List.append_assoc, List.range_succ_eq_map,
      List.map_cons, List.map_map]
    simp only [pow_zero, mul_one, List.cons_append, List.nil_append]
    refine congrArg (_ ++ ·) (congrArg (_ :: ·) (List.map_congr_left fun j _ => ?_))
    simp only [Function.comp_apply, pow_succ']
    ring

/-- Running the retry loop over `k` non-terminal responses followed by a
`FAILED` one stops right there: `k + 1` attempts consumed, the remote error
propagated, no further retries. -/
theorem retryLoop_failedAt (attempts : Nat → OpResult) (backoff : ℚ)
    (funcName : String) (maxRetries : Nat) :
    ∀ (k rem i : Nat) (delay : ℚ) (sleeps : List ℚ), k < rem →
    (∀ j, j < k → (attempts (i + j)).status ≠ "COMPLETED"
      ∧ (attempts (i + j)).status ≠ "FAILED") →
    (attempts (i + k)).status = "FAILED" →
    retryLoop isOperationNotFinished (getOperationAttempt attempts) backoff
        funcName maxRetries rem i delay sleeps
      = (.error (.operationFailed ("Operation failed! "
          ++ (attempts (i + k)).errorType ++ ": "
          ++ (attempts (i + k)).errorMessage ++ ".")),
         i + k + 1,
         sleeps.reverse ++ (List.range k).map (fun j => delay * backoff ^ j))
  | 0, rem, i, delay, sleeps, hk, _, hfail => by
    obtain ⟨r, rfl⟩ : ∃ r, rem = r + 1 := ⟨rem - 1, by omega⟩
    rw [Nat.add_zero] at hfail
    have hatt : getOperationAttempt attempts i = .error (.operationFailed
        ("Operation failed! " ++ (attempts i).errorType ++ ": "
          ++ (attempts i).errorMessage ++ ".")) := by
      unfold getOperationAttempt
      rw [validateOperationStatus_failed (attempts i) hfail]
    rw [retryLoop, hatt]
    simp [isOperationNotFinished]
  | k + 1, rem, i, delay, sleeps, hk, hpre, hfail => by
    obtain ⟨r, rfl⟩ : ∃ r, rem = r + 1 := ⟨rem - 1, by omega⟩
    have h0 := hpre 0 (by omega)
    rw [Nat.add_zero] at h0
    have hatt : getOperationAttempt attempts i = .error .operationNotFinished := by
      unfold getOperationAttempt
      rw [validateOperationStatus_nonTerminal (attempts i) h0.1 h0.2]
    rw [retryLoop, hatt]
    show retryLoop isOperationNotFinished (getOperationAttempt attempts) backoff
        funcName maxRetries r (i + 1) (delay * backoff) (delay :: sleeps) = _
    rw [retryLoop_failedAt attempts backoff funcName maxRetries k r (i + 1)
      (delay * backoff) (delay :: sleeps) (by omega)
      (fun j hj => by
        have := hpre (j + 1) (by omega)
        rwa [show i + (j + 1) = i + 1 + j by omega] at this)
      (by rwa [show i + 1 + k = i + (k + 1) by omega])]
    rw [show i + 1 + k = i + (k + 1) by omega]
    refine congrArg (Prod.mk _) (congrArg (Prod.mk _) ?_)
    rw [List.reverse_cons, List.append_assoc, List.range_succ_eq_map,
      List.map_cons, List.map_map]
    simp only [pow_zero, mul_one, List.cons_append, List.nil_append]
    refine congrArg (_ ++ ·) (congrArg (_ :: ·) (List.map_congr_left fun j _ => ?_))
    simp only [Function.comp_apply, pow_succ']
    ring

/-- C6: as soon as one attempt returns status `FAILED`, the poller raises
`OperationFailed` carrying the remote error type and message, consuming no
further attempts — however much retry budget remains. Non-`FAILED`,
non-`COMPLETED` responses before it are retried as `OperationNotFinished`. -/
theorem poller_fails_fast (attempts : Nat → OpResult) (maxRetries : Nat)
    (baseDelay backoff : ℚ) (funcName : String) (k : Nat) (hk : k < maxRetries)
    (hpre : ∀ j, j < k → (attempts j).status ≠ "COMPLETED"
      ∧ (attempts j).status ≠ "FAILED")
    (hfail : (attempts k).status = "FAILED") :
    retryRun isOperationNotFinished (getOperationAttempt attempts) maxRetries
        baseDelay backoff funcName
      = (.error (.operationFailed ("Operation failed! "
          ++ (attempts k).errorType ++ ": " ++ (attempts k).errorMessage ++ ".")),
         k + 1,
         (List.range k).map (fun j => baseDelay * backoff ^ j)) := by
  unfold retryRun
  have := retryLoop_failedAt attempts backoff funcName maxRetries k maxRetries 0
    baseDelay [] hk (fun j hj => by simpa using hpre j hj) (by simpa using hfail)
  simpa using this

/-- The responses used by the C6 witness: one `PENDING`, then `FAILED`. -/
def c6Attempts : Nat → OpResult := fun i =>
  if i = 0 then ⟨"PENDING", "", ""⟩ else ⟨"FAILED", "StoreError", "boom"⟩

/-- Witness for C6: budget 5, `[PENDING, FAILED]` stops after 2 attempts. -/
theorem poller_fails_fast_witness :
    (1 : Nat) < 5
    ∧ (∀ j, j < 1 → (c6Attempts j).status ≠ "COMPLETED"
        ∧ (c6Attempts j).status ≠ "FAILED")
    ∧ (c6Attempts 1).status = "FAILED"
    ∧ retryRun isOperationNotFinished (getOperationAttempt c6Attempts) 5 1 2
        "get_operation_result"
      = (.error (.operationFailed ("Operation failed! "
          ++ (c6Attempts 1).errorType ++ ": " ++ (c6Attempts 1).errorMessage ++ ".")),
         1 + 1,
         (List.range 1).map (fun j => (1 : ℚ) * (2 : ℚ) ^ j)) :=
  ⟨by decide, by decide, by decide,
    poller_fails_fast c6Attempts 5 1 2 "get_operation_result" 1 (by decide)
      (by decide) (by decide)⟩

/-- C7: when every attempt within the budget returns a non-terminal status —
including status strings unknown to the `OperationStatus` enum, which are
treated as non-terminal rather than as errors — the poller consumes exactly
`maxRetries` attempts, sleeping the multiplicatively backed-off delays
`base·backoff^j` after each one, and then raises the timeout error
(`NodeRequestError`). `get_operation_result` is this runner at
`max_retries=5, base_delay=1, backoff=2`. -/
theorem poller_times_out (attempts : Nat → OpResult) (maxRetries : Nat)
    (baseDelay backoff : ℚ) (funcName : String)
    (h : ∀ j, j < maxRetries → (attempts j).status ≠ "COMPLETED"
      ∧ (attempts j).status ≠ "FAILED") :
    retryRun isOperationNotFinished (getOperationAttempt attempts) maxRetries
        baseDelay backoff funcName
      = (.error (.nodeRequestError ("Failed executing " ++ funcName ++ " after "
          ++ toString maxRetries ++ " retries.")),
         maxRetries,
         (List.range maxRetries).map (fun j => baseDelay * backoff ^ j))
    ∧ getOperationResult attempts
      = retryRun isOperationNotFinished (getOperationAttempt attempts) 5 1 2
          "get_operation_result" := by
  refine ⟨?_, rfl⟩
  unfold retryRun
  have := retryLoop_allNonTerminal attempts backoff funcName maxRetries
    maxRetries 0 baseDelay [] (fun j hj => by simpa using h j hj)
  simpa using this

/-- The responses used by the C7 witness: `PENDING` alternating with a status
string a newer network version might send. -/
def c7Attempts : Nat → OpResult := fun i =>
  if i % 2 = 0 then ⟨"PENDING", "", ""⟩ else ⟨"REPLICATE_START_V9", "", ""⟩

/-- Witness for C7: budget 3, all attempts non-terminal (one of them an
unrecognized status), delays `[1, 2, 4]`. -/
theorem poller_times_out_witness :
    (∀ j, j < 3 → (c7Attempts j).status ≠ "COMPLETED"
      ∧ (c7Attempts j).status ≠ "FAILED")
    ∧ (retryRun isOperationNotFinished (getOperationAttempt c7Attempts) 3 1 2
        "get_operation_result"
      = (.error (.nodeRequestError ("Failed executing get_operation_result after "
          ++ toString 3 ++ " retries.")),
         3,
         (List.range 3).map (fun j => (1 : ℚ) * (2 : ℚ) ^ j))
      ∧ getOperationResult c7Attempts
        = retryRun isOperationNotFinished (getOperationAttempt c7Attempts) 5 1 2
            "get_operation_result") :=
  ⟨by decide, poller_times_out c7Attempts 3 1 2 "get_operation_result" (by decide)⟩

/-! ## UAL parsing (src/dkg/utils/ual.py) -/

/-- The record `parse_ual` returns. -/
structure ParsedUAL where
  blockchain : String
  contractAddress : String
  tokenId : Int
deriving DecidableEq

/-- The failure modes of `parse_ual`: the explicit `ValidationError` on a bad
arity, and the `ValueError` that `int(token_id)` raises on a non-numeric
token id. -/
inductive UALError where
  | validationError (msg : String)
  | valueError
deriving DecidableEq

/-- `parse_ual`: split the UAL on `":"` keeping only the part after the last
colon, split that on `"/"`, demand exactly three fields, convert the third
with `int`. -/
def parse_ual (ual : String) : Except UALError ParsedUAL :=
  match pySplit '/' ((pySplit ':' ual).getLastD "") with
  | [blockchain, contractAddress, tokenId] =>
    match pyInt? tokenId with
    | some n => .ok ⟨blockchain, contractAddress, n⟩
    | none => .error .valueError
  | _ => .error (.validationError "Invalid UAL!")

/-- Counterexample to C9 as stated: the DKG chain ids of this client contain
a colon (`constants.py` registers `otp:2043`, `gnosis:100`, `base:8453`, …),
and on `did:dkg:otp:2043/0xb0d4/1` the code returns blockchain `"2043"` — not
the full chain segment `otp:2043` — because it splits on `":"` and keeps only
the last part instead of stripping the `did:dkg:` prefix. -/
theorem parse_ual_keeps_only_last_colon_segment :
    parse_ual "did:dkg:otp:2043/0xb0d4/1"
      = .ok ⟨"2043", "0xb0d4", 1⟩
    ∧ "2043" ≠ "otp:2043" :=
  ⟨rfl, by decide⟩

/-- `split` never yields the empty field list. -/
theorem pySplitChar_ne_nil (c : Char) : ∀ l : List Char, pySplitChar c l ≠ []
  | [] => by simp [pySplitChar]
  | x :: xs => by
    simp only [pySplitChar]
    by_cases h : x = c <;> simp [h]

/-- Splitting a separator-free string yields that one field. -/
theorem pySplitChar_not_mem (c : Char) : ∀ l : List Char, c ∉ l →
    pySplitChar c l = [l]
  | [] => fun _ => rfl
  | x :: xs => fun h => by
    have hx : ¬x = c := fun he => h (he ▸ List.mem_cons_self x xs)
    have hxs : c ∉ xs := fun hm => h (List.mem_cons_of_mem x hm)
    simp only [pySplitChar, if_neg hx, pySplitChar_not_mem c xs hxs]
    rfl

/-- Splitting peels a separator-free prefix off as the first field. -/
theorem pySplitChar_append_cons (c : Char) : ∀ (a b : List Char), c ∉ a →
    pySplitChar c (a ++ c :: b) = a :: pySplitChar c b
  | [], b, _ => by simp [pySplitChar]
  | x :: a', b, h => by
    have hx : ¬x = c := fun he => h (he ▸ List.mem_cons_self x a')
    have ha' : c ∉ a' := fun hm => h (List.mem_cons_of_mem x hm)
    rw [show (x :: a') ++ c :: b = x :: (a' ++ c :: b) from rfl]
    rw [show pySplitChar c (x :: (a' ++ c :: b))
        = (x :: (pySplitChar c (a' ++ c :: b)).headD [])
            :: (pySplitChar c (a' ++ c :: b)).tail
        from by simp [pySplitChar, hx]]
    rw [pySplitChar_append_cons c a' b ha']
    rfl

/-- A string containing the separator splits into at least two fields. -/
theorem pySplitChar_length_ge_two (c : Char) : ∀ l : List Char, c ∈ l →
    2 ≤ (pySplitChar c l).length
  | [] => by simp
  | x :: xs => fun h => by
    simp only [pySplitChar]
    by_cases hx : x = c
    · rw [if_pos hx]
      have : 1 ≤ (pySplitChar c xs).length := by
        rcases hq : pySplitChar c xs with _ | _
        · exact absurd hq (pySplitChar_ne_nil c xs)
        · simp
      simp only [List.length_cons]
      omega
    · rw [if_neg hx]
      have hxs : c ∈ xs := by
        rcases List.mem_cons.mp h with h' | h'
        · exact absurd h'.symm hx
        · exact h'
      have h2 := pySplitChar_length_ge_two c xs hxs
      simp only [List.length_cons, List.length_tail]
      omega

/-- The last field of a split is the suffix after the last separator. -/
theorem pySplitChar_getLastD (c : Char) : ∀ (a b : List Char) (d : List Char),
    c ∉ b → (pySplitChar c (a ++ c :: b)).getLastD d = b
  | [], b, d, hb => by
    rw [List.nil_append]
    rw [show pySplitChar c (c :: b) = [] :: pySplitChar c b from by
      simp [pySplitChar]]
    rw [pySplitChar_not_mem c b hb, List.getLastD_cons]
    rfl
  | x :: a', b, d, hb => by
    by_cases hx : x = c
    · rw [hx]
      rw [show (c :: a') ++ c :: b = c :: (a' ++ c :: b) from rfl]
      rw [show pySplitChar c (c :: (a' ++ c :: b))
          = [] :: pySplitChar c (a' ++ c :: b) from by simp [pySplitChar]]
      rw [List.getLastD_cons,
        getLastD_congr _ (pySplitChar_ne_nil c (a' ++ c :: b)) [] d]
      exact pySplitChar_getLastD c a' b d hb
    · have hmem : c ∈ a' ++ c :: b := by simp
      have hlen := pySplitChar_length_ge_two c (a' ++ c :: b) hmem
      have hih := pySplitChar_getLastD c a' b d hb
      rw [show (x :: a') ++ c :: b = x :: (a' ++ c :: b) from rfl]
      rw [show pySplitChar c (x :: (a' ++ c :: b))
          = (x :: (pySplitChar c (a' ++ c :: b)).headD [])
              :: (pySplitChar c (a' ++ c :: b)).tail
          from by simp [pySplitChar, hx]]
      rcases hq : pySplitChar c (a' ++ c :: b) with _ | ⟨y, t⟩
      · exact absurd hq (pySplitChar_ne_nil c _)
      · rw [hq] at hlen hih
        rcases t with _ | ⟨z, t'⟩
        · simp at hlen
        · simp only [List.headD_cons, List.tail_cons]
          rw [List.getLastD_cons, getLastD_congr (z :: t') (by simp) (x :: y) d]
          rw [List.getLastD_cons] at hih
          rwa [getLastD_congr (z :: t') (by simp) y d] at hih

/-- The suffix of a string after its last colon (the whole string when there
is no colon): what `ual.split(":")[-1]` keeps of the text before the first
slash. -/
def afterLastColon (s : String) : String :=
  ⟨(s.data.reverse.takeWhile (fun ch => ch != ':')).reverse⟩

/-- That suffix is colon-free. -/
theorem afterLastColon_no_colon (l : List Char) :
    ':' ∉ (l.reverse.takeWhile (fun ch => ch != ':')).reverse := by
  intro h
  have h' := List.mem_reverse.mp h
  have := List.mem_takeWhile_imp h'
  simp at this

/-- Every character of that suffix comes from the original string. -/
theorem afterLastColon_subset (l : List Char) (x : Char)
    (h : x ∈ (l.reverse.takeWhile (fun ch => ch != ':')).reverse) : x ∈ l := by
  have h' := List.mem_reverse.mp h
  exact List.mem_reverse.mp ((List.takeWhile_sublist _).subset h')

/-- Splitting off the last colon: a colon-free string is its own suffix, and
a string containing a colon is some prefix, the last colon, then the
colon-free suffix. -/
theorem rev_takeWhile_decomp (l : List Char) :
    (':' ∉ l → (l.reverse.takeWhile (fun ch => ch != ':')).reverse = l)
    ∧ (':' ∈ l →
        ∃ A, l = A ++ ':' :: (l.reverse.takeWhile (fun ch => ch != ':')).reverse) := by
  constructor
  · intro h
    have hall : ∀ a ∈ l.reverse, (fun ch => ch != ':') a = true := by
      intro a ha
      simp only [bne_iff_ne, ne_eq]
      intro he
      exact h (he ▸ List.mem_reverse.mp ha)
    rw [List.takeWhile_eq_self_iff.mpr hall, List.reverse_reverse]
  · intro h
    cases hD : l.reverse.dropWhile (fun ch => ch != ':') with
    | nil =>
      exfalso
      have hTD := List.takeWhile_append_dropWhile (fun ch => ch != ':') l.reverse
      rw [hD, List.append_nil] at hTD
      have h' : (':' : Char) ∈ l.reverse := List.mem_reverse.mpr h
      rw [← hTD] at h'
      have := List.mem_takeWhile_imp h'
      simp at this
    | cons dhd dtl =>
      have h0 := List.head?_dropWhile_not (fun ch => ch != ':') l.reverse
      rw [hD] at h0
      simp only [List.head?_cons] at h0
      have hdh : dhd = ':' := by simpa using h0
      refine ⟨dtl.reverse, ?_⟩
      have hTD := List.takeWhile_append_dropWhile (fun ch => ch != ':') l.reverse
      rw [hD, hdh] at hTD
      have hrev := congrArg List.reverse hTD
      rw [List.reverse_reverse, List.reverse_append, List.reverse_cons,
        List.append_assoc] at hrev
      exact hrev.symm

/-- `getLastD` through the `String`-level split. -/
theorem pySplit_getLastD (c : Char) (s : String) :
    (pySplit c s).getLastD "" = ⟨(pySplitChar c s.data).getLastD []⟩ := by
  unfold pySplit
  rw [List.getLastD_eq_getLast?, List.getLastD_eq_getLast?, List.getLast?_map]
  cases (pySplitChar c s.data).getLast? with
  | none => rfl
  | some a => rfl

/-- C9 amended: `parse_ual` splits on `":"` keeping only the segment after
the last colon, then splits that on `"/"`; it accepts exactly arity 3
(`ValidationError` otherwise), and the returned blockchain field is the part
of the chain segment after its last colon — the full `<chain>` only when the
chain id contains no colon. -/
theorem parse_ual_after_last_colon (chain addr tid : String) (n : Int)
    (hchain : '/' ∉ chain.data)
    (haddr1 : '/' ∉ addr.data) (haddr2 : ':' ∉ addr.data)
    (htid1 : '/' ∉ tid.data) (htid2 : ':' ∉ tid.data)
    (hint : pyInt? tid = some n) :
    parse_ual ("did:dkg:" ++ chain ++ "/" ++ addr ++ "/" ++ tid)
      = .ok ⟨afterLastColon chain, addr, n⟩
    ∧ (∀ ual : String,
        (pySplit '/' ((pySplit ':' ual).getLastD "")).length ≠ 3 →
        parse_ual ual = .error (.validationError "Invalid UAL!")) := by
  constructor
  · have hBslash : '/' ∉ (afterLastColon chain).data := fun hm =>
      hchain (afterLastColon_subset chain.data _ hm)
    have hBcolon : ':' ∉ (afterLastColon chain).data :=
      afterLastColon_no_colon chain.data
    have hdecomp : ∃ A, ("did:dkg:" ++ chain ++ "/" ++ addr ++ "/" ++ tid).data
        = A ++ ':' :: ((afterLastColon chain).data
            ++ '/' :: (addr.data ++ '/' :: tid.data)) := by
      by_cases hc : ':' ∈ chain.data
      · obtain ⟨A, hA⟩ := (rev_takeWhile_decomp chain.data).2 hc
        refine ⟨"did:dkg:".data ++ A, ?_⟩
        simp only [String.data_append]
        rw [show chain.data = A ++ ':' :: (afterLastColon chain).data from hA]
        simp [List.append_assoc]
      · have hBeq : (afterLastColon chain).data = chain.data :=
          (rev_takeWhile_decomp chain.data).1 hc
        refine ⟨['d', 'i', 'd', ':', 'd', 'k', 'g'], ?_⟩
        simp only [String.data_append]
        rw [hBeq]
        simp [List.append_assoc]
    obtain ⟨A, hA⟩ := hdecomp
    have hnosuf : ':' ∉ (afterLastColon chain).data
        ++ '/' :: (addr.data ++ '/' :: tid.data) := by
      intro hmem
      rcases List.mem_append.mp hmem with h | h
      · exact hBcolon h
      · rcases List.mem_cons.mp h with h | h
        · exact absurd h (by decide)
        · rcases List.mem_append.mp h with h | h
          · exact haddr2 h
          · rcases List.mem_cons.mp h with h | h
            · exact absurd h (by decide)
            · exact htid2 h
    have hlast : (pySplit ':'
          ("did:dkg:" ++ chain ++ "/" ++ addr ++ "/" ++ tid)).getLastD ""
        = ⟨(afterLastColon chain).data ++ '/' :: (addr.data ++ '/' :: tid.data)⟩ := by
      rw [pySplit_getLastD, hA, pySplitChar_getLastD ':' A _ [] hnosuf]
    have hsplit2 : pySplit '/'
          ⟨(afterLastColon chain).data ++ '/' :: (addr.data ++ '/' :: tid.data)⟩
        = [afterLastColon chain, addr, tid] := by
      show (pySplitChar '/' ((afterLastColon chain).data
          ++ '/' :: (addr.data ++ '/' :: tid.data))).map (fun l => (⟨l⟩ : String))
        = _
      rw [pySplitChar_append_cons '/' (afterLastColon chain).data _ hBslash,
        pySplitChar_append_cons '/' addr.data _ haddr1,
        pySplitChar_not_mem '/' tid.data htid1]
      rfl
    have hstep : parse_ual ("did:dkg:" ++ chain ++ "/" ++ addr ++ "/" ++ tid)
        = match pyInt? tid with
          | some m => Except.ok (⟨afterLastColon chain, addr, m⟩ : ParsedUAL)
          | none => Except.error UALError.valueError := by
      unfold parse_ual
      rw [hlast, hsplit2]
    rw [hstep, hint]
  · intro ual hlen
    unfold parse_ual
    rcases hargs : pySplit '/' ((pySplit ':' ual).getLastD "") with _ | ⟨a, _ | ⟨b, _ | ⟨c', _ | ⟨d, rest⟩⟩⟩⟩
    · rfl
    · rfl
    · rfl
    · rw [hargs] at hlen
      simp at hlen
    · rfl

/-- Witness for the amended C9 on the chain id `otp:2043`. -/
theorem parse_ual_after_last_colon_witness :
    parse_ual ("did:dkg:" ++ "otp:2043" ++ "/" ++ "0xb0d4" ++ "/" ++ "7")
      = .ok ⟨afterLastColon "otp:2043", "0xb0d4", 7⟩
    ∧ (∀ ual : String,
        (pySplit '/' ((pySplit ':' ual).getLastD "")).length ≠ 3 →
        parse_ual ual = .error (.validationError "Invalid UAL!")) :=
  parse_ual_after_last_colon "otp:2043" "0xb0d4" "7" 7 (by decide) (by decide)
    (by decide) (by decide) (by decide) (by decide)

/-! ## Fingerprint matching (C2)

Groundwork: the sort used by `hash_assertion_with_indexes` respects
permutations, and the positional encoding is injective with a fixed width. -/

instance : IsTotal String pyLe :=
  ⟨fun a b => by
    unfold pyLe pyStrLt
    cases h : pyStrLtChars b.data a.data
    · exact Or.inl rfl
    · exact Or.inr (pyStrLtChars_asymm _ _ h)⟩

instance : IsTrans String pyLe :=
  ⟨fun a b c hab hbc => by
    unfold pyLe pyStrLt at hab hbc ⊢
    cases hca : pyStrLtChars c.data a.data
    · rfl
    · exfalso
      cases hbc2 : pyStrLtChars b.data c.data
      · have hbceq := pyStrLtChars_eq_of_not_lt _ _ hbc2 hbc
        rw [hbceq] at hab
        rw [hab] at hca
        cases hca
      · have hba := pyStrLtChars_trans _ _ _ hbc2 hca
        rw [hba] at hab
        cases hab⟩

instance : IsAntisymm String pyLe :=
  ⟨fun a b hab hba => string_eq_of_data a b (pyStrLtChars_eq_of_not_lt _ _ hba hab)⟩

/-- Sorting is permutation-invariant: sorted permutations are unique. -/
theorem pySort_eq_of_perm {A B : List String} (h : A.Perm B) :
    pySort A = pySort B :=
  List.eq_of_perm_of_sorted
    ((List.perm_insertionSort pyLe A).trans
      (h.trans (List.perm_insertionSort pyLe B).symm))
    (List.sorted_insertionSort pyLe A) (List.sorted_insertionSort pyLe B)

/-- `pySort` permutes its input. -/
theorem pySort_perm (l : List String) : (pySort l).Perm l :=
  List.perm_insertionSort pyLe l

/-- A hex digit decodes back to its value. -/
theorem hexDigitVal_hexDigit (d : Nat) (h : d < 16) :
    hexDigitVal (hexDigit d) = d := by
  interval_cases d <;> rfl

/-- `hexChars` decodes back to its input once the fuel covers it. -/
theorem hexToNat_hexChars : ∀ (fuel n : Nat), n < 16 ^ fuel →
    hexToNat (hexChars fuel n) = n
  | 0, n, h => by
    simp only [pow_zero, Nat.lt_one_iff] at h
    simp [hexChars, hexToNat, h]
  | fuel + 1, n, h => by
    by_cases h16 : n < 16
    · simp [hexChars, h16, hexToNat, hexDigitVal_hexDigit n h16]
    · rw [hexChars]
      simp only [if_neg h16]
      unfold hexToNat
      rw [List.foldl_append]
      have hdiv : n / 16 < 16 ^ fuel := by
        rw [pow_succ] at h
        exact Nat.div_lt_of_lt_mul (by omega)
      have := hexToNat_hexChars fuel (n / 16) hdiv
      unfold hexToNat at this
      rw [this]
      simp only [List.foldl_cons, List.foldl_nil,
        hexDigitVal_hexDigit (n % 16) (Nat.mod_lt n (by omega))]
      omega

/-- Leading `'0'` padding does not change the decoded value. -/
theorem hexToNat_pad (k : Nat) (l : List Char) :
    hexToNat (List.replicate k '0' ++ l) = hexToNat l := by
  induction k with
  | zero => rfl
  | succ k ih =>
    rw [List.replicate_succ, List.cons_append]
    unfold hexToNat at ih ⊢
    simp only [List.foldl_cons]
    rw [show hexDigitVal '0' = 0 from rfl]
    simpa using ih

/-- The positional encoding decodes back to the position. -/
theorem hexToNat_encodeUint256 (n : Nat) : hexToNat (encodeUint256 n).data = n := by
  unfold encodeUint256
  rw [show (⟨List.replicate (64 - (hexChars (n + 1) n).length) '0'
      ++ hexChars (n + 1) n⟩ : String).data
    = List.replicate (64 - (hexChars (n + 1) n).length) '0'
      ++ hexChars (n + 1) n from rfl]
  rw [hexToNat_pad]
  have h1 : n < 16 ^ n := Nat.lt_pow_self (by norm_num) n
  have h2 : (16 : Nat) ^ n ≤ 16 ^ (n + 1) :=
    Nat.pow_le_pow_right (by norm_num) (by omega)
  exact hexToNat_hexChars (n + 1) n (lt_of_lt_of_le h1 h2)

/-- The positional encoding never collides. -/
theorem encodeUint256_injective : Function.Injective encodeUint256 := by
  intro a b h
  have := congrArg (fun s => hexToNat s.data) h
  simpa [hexToNat_encodeUint256] using this

/-- Digit-count bound: below `16 ^ k` (with `k ≥ 1`) at most `k` hex digits. -/
theorem hexChars_length_le : ∀ (fuel n k : Nat), 1 ≤ k → n < 16 ^ k →
    (hexChars fuel n).length ≤ k
  | 0, n, k, hk, h => by
    rw [show hexChars 0 n = [] from rfl]
    simp
  | fuel + 1, n, k, hk, h => by
    by_cases h16 : n < 16
    · rw [hexChars]
      simp only [if_pos h16, List.length_cons, List.length_nil]
      omega
    · rw [hexChars]
      simp only [if_neg h16, List.length_append, List.length_cons,
        List.length_nil]
      have hk2 : 2 ≤ k := by
        by_contra hc
        have hk1 : k = 1 := by omega
        rw [hk1, pow_one] at h
        omega
      have hdiv : n / 16 < 16 ^ (k - 1) := by
        apply Nat.div_lt_of_lt_mul
        calc n < 16 ^ k := h
        _ = 16 * 16 ^ (k - 1) := by
          rw [← pow_succ']
          congr 1
          omega
      have := hexChars_length_le fuel (n / 16) (k - 1) (by omega) hdiv
      omega

/-- Fixed width: positions below `16 ^ 64` encode to exactly 64 characters. -/
theorem encodeUint256_length (n : Nat) (h : n < 16 ^ 64) :
    (encodeUint256 n).data.length = 64 := by
  unfold encodeUint256
  have hle := hexChars_length_le (n + 1) n 64 (by omega) h
  simp only [List.length_append, List.length_replicate]
  omega

/-- Abstract shape of a sorted-pair Merkle computation: a leaf digest, or the
combination of two child digests. `build_tree` computes exactly the `eval` of
such a tree (see `treesRootGo_spec`); collision-freeness of the hash on the
digests of one computation says its `eval` determines the tree up to sibling
order. -/
inductive MTree where
  | lf (v : String)
  | nd (l r : MTree)

/-- The digest at the top of an abstract tree. -/
def MTree.eval (hf : String → String) : MTree → String
  | .lf v => v
  | .nd l r => hf (joinPair true (l.eval hf) (r.eval hf))

/-- The leaf digests of an abstract tree, in order. -/
def MTree.leafVals : MTree → List String
  | .lf v => [v]
  | .nd l r => l.leafVals ++ r.leafVals

/-- All subtrees (the tree itself included). -/
def MTree.subtrees : MTree → List MTree
  | .lf v => [.lf v]
  | .nd l r => .nd l r :: (l.subtrees ++ r.subtrees)

/-- Equality of abstract trees up to swapping siblings — the ambiguity that
sorted-pair combination cannot distinguish. -/
def MTree.eqv : MTree → MTree → Bool
  | .lf a, .lf b => a == b
  | .nd a b, .nd c d => (MTree.eqv a c && MTree.eqv b d)
      || (MTree.eqv a d && MTree.eqv b c)
  | _, _ => false

theorem MTree.eqv_refl : ∀ t : MTree, MTree.eqv t t = true
  | .lf v => by simp [MTree.eqv]
  | .nd l r => by
    simp only [MTree.eqv, Bool.or_eq_true, Bool.and_eq_true]
    exact Or.inl ⟨MTree.eqv_refl l, MTree.eqv_refl r⟩

theorem MTree.self_mem_subtrees : ∀ t : MTree, t ∈ t.subtrees
  | .lf v => by simp [MTree.subtrees]
  | .nd l r => by simp [MTree.subtrees]

/-- Sibling-swap-equivalent trees carry the same leaf digests up to order. -/
theorem MTree.eqv_leafVals_perm : ∀ t1 t2 : MTree, MTree.eqv t1 t2 = true →
    t1.leafVals.Perm t2.leafVals
  | .lf a, .lf b, h => by
    simp only [MTree.eqv, beq_iff_eq] at h
    rw [MTree.leafVals, MTree.leafVals, h]
  | .lf _, .nd _ _, h => by simp [MTree.eqv] at h
  | .nd _ _, .lf _, h => by simp [MTree.eqv] at h
  | .nd a b, .nd c d, h => by
    simp only [MTree.eqv, Bool.or_eq_true, Bool.and_eq_true] at h
    rw [MTree.leafVals, MTree.leafVals]
    rcases h with ⟨hac, hbd⟩ | ⟨had, hbc⟩
    · exact (MTree.eqv_leafVals_perm a c hac).append (MTree.eqv_leafVals_perm b d hbd)
    · exact ((MTree.eqv_leafVals_perm a d had).append
        (MTree.eqv_leafVals_perm b c hbc)).trans (List.perm_append_comm)

/-- The abstract mirror of one `build_tree` round. -/
def treesNext (hf : String → String) : List MTree → List MTree
  | [] => []
  | [t] => [t]
  | t1 :: t2 :: rest =>
    (if t2.eval hf ≠ "" then .nd t1 t2 else t1) :: treesNext hf rest

/-- `treesNext` mirrors `nextLevel` through `eval`. -/
theorem treesNext_map_eval (hf : String → String) : ∀ ts : List MTree,
    (treesNext hf ts).map (MTree.eval hf) = nextLevel hf true (ts.map (MTree.eval hf))
  | [] => rfl
  | [_] => rfl
  | t1 :: t2 :: rest => by
    by_cases h : t2.eval hf ≠ ""
    · simp [treesNext, nextLevel, h, treesNext_map_eval hf rest, MTree.eval]
    · simp [treesNext, nextLevel, h, treesNext_map_eval hf rest]

theorem treesNext_length (hf : String → String) : ∀ ts : List MTree,
    (treesNext hf ts).length = (ts.length + 1) / 2
  | [] => rfl
  | [_] => by simp [treesNext]
  | _ :: _ :: rest => by
    simp only [treesNext, List.length_cons, treesNext_length hf rest]
    omega

/-- One abstract round preserves the concatenated leaf digests, as long as no
digest at the current level is empty (so no node is dropped). -/
theorem treesNext_leafVals (hf : String → String) : ∀ ts : List MTree,
    ("" : String) ∉ ts.map (MTree.eval hf) →
    ((treesNext hf ts).map MTree.leafVals).flatten
      = (ts.map MTree.leafVals).flatten
  | [], _ => rfl
  | [_], _ => by simp [treesNext]
  | t1 :: t2 :: rest, h => by
    have h2 : t2.eval hf ≠ "" := by
      intro he
      exact h (by rw [← he]; simp)
    have hrest : ("" : String) ∉ rest.map (MTree.eval hf) := by
      intro hm
      exact h (by simp [hm])
    simp only [treesNext, if_pos h2, List.map_cons, List.flatten_cons,
      MTree.leafVals]
    rw [treesNext_leafVals hf rest hrest]
    simp [List.append_assoc]

/-- Fuel-driven abstract mirror of the whole build (compare `levelsUpGo`). -/
def treesRootGo (hf : String → String) : Nat → List MTree → Option MTree
  | 0, ts => ts.head?
  | fuel + 1, ts =>
    if ts.length ≤ 1 then ts.head? else treesRootGo hf fuel (treesNext hf ts)

/-- The abstract tree whose `eval` is the Merkle root of a statement list's
indexed leaf hashes. -/
def merkleStruct (hf : String → String) (P : List String) : Option MTree :=
  treesRootGo hf P.length (P.map .lf)

/-- The plumbing theorem for C2: running the abstract mirror alongside
`build_tree` yields a tree whose leaf digests are the input level's
concatenated leaf digests and whose `eval` is the string-level Merkle root. -/
theorem treesRootGo_spec (hf : String → String) : ∀ (fuel : Nat) (ts : List MTree),
    ts ≠ [] → ts.length ≤ fuel + 1 →
    (∀ lvl ∈ levelsUp hf true (ts.map (MTree.eval hf)), ("" : String) ∉ lvl) →
    ∃ T, treesRootGo hf fuel ts = some T
      ∧ T.leafVals = (ts.map MTree.leafVals).flatten
      ∧ some (T.eval hf) = merkleRoot hf true (ts.map (MTree.eval hf))
  | 0, ts, hne, hlen, _ => by
    rcases ts with _ | ⟨t, rest⟩
    · exact absurd rfl hne
    · have hr : rest = [] := by
        simp only [List.length_cons] at hlen
        exact List.eq_nil_of_length_eq_zero (by omega)
      subst hr
      refine ⟨t, rfl, by simp, ?_⟩
      rw [show (([t] : List MTree).map (MTree.eval hf)) = [t.eval hf] from rfl,
        merkleRoot_singleton]
  | fuel + 1, ts, hne, hlen, hlvl => by
    by_cases hl1 : ts.length ≤ 1
    · rcases ts with _ | ⟨t, rest⟩
      · exact absurd rfl hne
      · have hr : rest = [] := by
          simp only [List.length_cons] at hl1
          exact List.eq_nil_of_length_eq_zero (by omega)
        subst hr
        refine ⟨t, ?_, by simp, ?_⟩
        · rw [treesRootGo, if_pos hl1]
          rfl
        · rw [show (([t] : List MTree).map (MTree.eval hf)) = [t.eval hf] from rfl,
            merkleRoot_singleton]
    · have hlen2 : 2 ≤ ts.length := by omega
      have hmaplen : 2 ≤ (ts.map (MTree.eval hf)).length := by simpa using hlen2
      have hlvlhead : ("" : String) ∉ ts.map (MTree.eval hf) := by
        apply hlvl
        rw [levelsUp_of_ge_two hf true _ hmaplen]
        exact List.mem_cons_self _ _
      have hlvl' : ∀ lvl ∈ levelsUp hf true ((treesNext hf ts).map (MTree.eval hf)),
          ("" : String) ∉ lvl := by
        intro lvl hm
        apply hlvl
        rw [levelsUp_of_ge_two hf true _ hmaplen]
        exact List.mem_cons_of_mem _ (by rwa [treesNext_map_eval] at hm)
      have hlen' : (treesNext hf ts).length ≤ fuel + 1 := by
        rw [treesNext_length]
        omega
      have hne' : treesNext hf ts ≠ [] := by
        intro h0
        have := treesNext_length hf ts
        rw [h0] at this
        simp only [List.length_nil] at this
        omega
      obtain ⟨T, h1, h2, h3⟩ := treesRootGo_spec hf fuel (treesNext hf ts)
        hne' hlen' hlvl'
      refine ⟨T, ?_, ?_, ?_⟩
      · rw [treesRootGo, if_neg hl1]
        exact h1
      · rw [h2]
        exact treesNext_leafVals hf ts hlvlhead
      · rw [treesNext_map_eval] at h3
        rw [merkleRoot_step hf true _ hmaplen]
        exact h3

/-- Singleton flattening. -/
theorem flatten_map_singleton (P : List String) :
    (P.map (fun v => [v])).flatten = P := by
  induction P with
  | nil => rfl
  | cons a l ih => simp [ih]

/-- `noEmptyLevels` read back as a proposition. -/
theorem noEmptyLevels_spec (levels : List (List String))
    (h : noEmptyLevels levels = true) : ∀ lvl ∈ levels, ("" : String) ∉ lvl := by
  simp only [noEmptyLevels, List.all_eq_true, bne_iff_ne, ne_eq] at h
  intro lvl hm he
  exact h lvl hm "" he rfl

/-- `merkleStruct` packages the abstract tree of a leaf list: same leaves in
order, `eval` equal to the root. -/
theorem merkleStruct_spec (hf : String → String) (P : List String)
    (hne : P ≠ [])
    (hlvl : ∀ lvl ∈ levelsUp hf true P, ("" : String) ∉ lvl) :
    ∃ T, merkleStruct hf P = some T ∧ T.leafVals = P
      ∧ some (T.eval hf) = merkleRoot hf true P := by
  have hmap : (P.map MTree.lf).map (MTree.eval hf) = P := by
    rw [List.map_map, show MTree.eval hf ∘ MTree.lf = fun v => v from rfl,
      List.map_id']
  obtain ⟨T, h1, h2, h3⟩ := treesRootGo_spec hf P.length (P.map .lf)
    (by simpa using hne) (by simp) (by rwa [hmap])
  refine ⟨T, h1, ?_, by rwa [hmap] at h3⟩
  rw [h2, List.map_map]
  rw [show MTree.leafVals ∘ MTree.lf = fun v => [v] from rfl]
  exact flatten_map_singleton P

/-- The raw inputs `hash_assertion_with_indexes` feeds to `hash_function`:
one `sh statement ++ encode index` per sorted position. -/
def leafInputs (sh : String → String) (stmts : List String) : List String :=
  ((pySort stmts).enum).map (fun p => sh p.2 ++ encodeUint256 p.1)

/-- Freedom from collisions of `f` among the finitely many values in `xs` —
the decidable stand-in for collision resistance on one computation. -/
def injOnCheck (f : String → String) (xs : List String) : Bool :=
  xs.all fun x => xs.all fun y => !(f x == f y) || x == y

/-- Freedom from digest collisions among all subtrees of the two abstract
trees of `A` and `B`, except between sibling-swap-equivalent subtrees (whose
digests coincide by construction in sorted-pair mode). -/
def merkleStructInj (hf sh : String → String) (A B : List String) : Bool :=
  match merkleStruct hf (hashAssertionWithIndexes hf sh true A),
      merkleStruct hf (hashAssertionWithIndexes hf sh true B) with
  | some tA, some tB =>
    (tA.subtrees ++ tB.subtrees).all fun t1 =>
      (tA.subtrees ++ tB.subtrees).all fun t2 =>
        !(t1.eval hf == t2.eval hf) || MTree.eqv t1 t2
  | _, _ => true

theorem injOnCheck_spec (f : String → String) (xs : List String)
    (h : injOnCheck f xs = true) :
    ∀ x ∈ xs, ∀ y ∈ xs, f x = f y → x = y := by
  intro x hx y hy hfe
  simp only [injOnCheck, List.all_eq_true] at h
  have := h x hx y hy
  simp only [Bool.or_eq_true, Bool.not_eq_true', beq_eq_false_iff_ne, ne_eq,
    beq_iff_eq] at this
  rcases this with h' | h'
  · exact absurd hfe h'
  · exact h'

/-- With the default sort, `hash_assertion_with_indexes` hashes the sorted
statements with their post-sort positions. -/
theorem hashAWI_true_eq (hf sh : String → String) (L : List String) :
    hashAssertionWithIndexes hf sh true L
      = ((pySort L).enum).map (fun p => hf (sh p.2 ++ encodeUint256 p.1)) := rfl

theorem hashAWI_true_length (hf sh : String → String) (L : List String) :
    (hashAssertionWithIndexes hf sh true L).length = L.length := by
  rw [hashAWI_true_eq]
  simp [(pySort_perm L).length_eq]

/-- `getD` under the length bound is `getElem`. -/
theorem getD_lt (l : List String) (i : Nat) (hi : i < l.length) (d : String) :
    l.getD i d = l[i] := by
  rw [List.getD_eq_getElem?_getD, List.getElem?_eq_getElem hi]
  rfl

theorem hashAWI_true_getD (hf sh : String → String) (L : List String) (i : Nat)
    (hi : i < (pySort L).length) :
    (hashAssertionWithIndexes hf sh true L).getD i ""
      = hf (sh ((pySort L).getD i "") ++ encodeUint256 i) := by
  rw [hashAWI_true_eq]
  have hlen : i < (((pySort L).enum).map
      (fun p => hf (sh p.2 ++ encodeUint256 p.1))).length := by simpa using hi
  rw [List.getD_eq_getElem?_getD, List.getElem?_eq_getElem hlen]
  simp [List.getElem_enum, List.getD_eq_getElem?_getD,
    List.getElem?_eq_getElem hi]

theorem leafInputs_getD (sh : String → String) (L : List String) (i : Nat)
    (hi : i < (pySort L).length) :
    (leafInputs sh L).getD i "" = sh ((pySort L).getD i "") ++ encodeUint256 i := by
  unfold leafInputs
  have hlen : i < (((pySort L).enum).map
      (fun p => sh p.2 ++ encodeUint256 p.1)).length := by simpa using hi
  rw [List.getD_eq_getElem?_getD, List.getElem?_eq_getElem hlen]
  simp [List.getElem_enum, List.getD_eq_getElem?_getD,
    List.getElem?_eq_getElem hi]

/-- C2 amended: with the default sort of `hash_assertion_with_indexes`
followed by a `sort_pairs=True` `MerkleTree`, two statement lists have equal
Fingerprints (Merkle roots) **iff they hold identical statements up to
order** — identical order is not required, since the default mode sorts the
statements first. The collision-freedom of the hash functions on the values
of this computation is assumed through the three decidable checks. -/
theorem fingerprint_eq_iff_perm (hf sh : String → String) (A B : List String)
    (hA : A ≠ []) (hB : B ≠ [])
    (hlenA : A.length ≤ 16 ^ 64) (hlenB : B.length ≤ 16 ^ 64)
    (hneA : noEmptyLevels (levelsUp hf true
      (hashAssertionWithIndexes hf sh true A)) = true)
    (hneB : noEmptyLevels (levelsUp hf true
      (hashAssertionWithIndexes hf sh true B)) = true)
    (hhf : injOnCheck hf (leafInputs sh A ++ leafInputs sh B) = true)
    (hsh : injOnCheck sh (A ++ B) = true)
    (hstruct : merkleStructInj hf sh A B = true) :
    merkleRoot hf true (hashAssertionWithIndexes hf sh true A)
        = merkleRoot hf true (hashAssertionWithIndexes hf sh true B)
      ↔ A.Perm B := by
  constructor
  · intro hroot
    have hLAne : hashAssertionWithIndexes hf sh true A ≠ [] := by
      intro h0
      have hl := hashAWI_true_length hf sh A
      rw [h0] at hl
      exact hA (List.eq_nil_of_length_eq_zero (by simpa using hl.symm))
    have hLBne : hashAssertionWithIndexes hf sh true B ≠ [] := by
      intro h0
      have hl := hashAWI_true_length hf sh B
      rw [h0] at hl
      exact hB (List.eq_nil_of_length_eq_zero (by simpa using hl.symm))
    obtain ⟨TA, hA1, hA2, hA3⟩ :=
      merkleStruct_spec hf _ hLAne (noEmptyLevels_spec _ hneA)
    obtain ⟨TB, hB1, hB2, hB3⟩ :=
      merkleStruct_spec hf _ hLBne (noEmptyLevels_spec _ hneB)
    have heval : TA.eval hf = TB.eval hf :=
      Option.some_injective _ (hA3.trans (hroot.trans hB3.symm))
    have hstruct' : ∀ t1 ∈ TA.subtrees ++ TB.subtrees,
        ∀ t2 ∈ TA.subtrees ++ TB.subtrees,
        t1.eval hf = t2.eval hf → MTree.eqv t1 t2 = true := by
      have h := hstruct
      unfold merkleStructInj at h
      rw [hA1, hB1] at h
      intro t1 h1 t2 h2 he
      simp only [List.all_eq_true] at h
      have h' := h t1 h1 t2 h2
      simp only [Bool.or_eq_true, Bool.not_eq_true', beq_eq_false_iff_ne,
        ne_eq] at h'
      rcases h' with h' | h'
      · exact absurd he h'
      · exact h'
    have heqv : MTree.eqv TA TB = true :=
      hstruct' TA (List.mem_append_left _ (MTree.self_mem_subtrees TA))
        TB (List.mem_append_right _ (MTree.self_mem_subtrees TB)) heval
    have hperm : (hashAssertionWithIndexes hf sh true A).Perm
        (hashAssertionWithIndexes hf sh true B) := by
      rw [← hA2, ← hB2]
      exact MTree.eqv_leafVals_perm TA TB heqv
    have hlen : (pySort A).length = (pySort B).length := by
      have hl := hperm.length_eq
      rw [hashAWI_true_length, hashAWI_true_length] at hl
      rw [(pySort_perm A).length_eq, (pySort_perm B).length_eq]
      exact hl
    have hpoint : ∀ i, i < (pySort A).length →
        (pySort A).getD i "" = (pySort B).getD i "" := by
      intro i hi
      have hiLA : i < (hashAssertionWithIndexes hf sh true A).length := by
        rw [hashAWI_true_length]
        rw [(pySort_perm A).length_eq] at hi
        exact hi
      have hmem : (hashAssertionWithIndexes hf sh true A)[i]
          ∈ hashAssertionWithIndexes hf sh true B :=
        hperm.subset (List.getElem_mem hiLA)
      obtain ⟨j, hj, hje⟩ := List.getElem_of_mem hmem
      have hjS : j < (pySort B).length := by
        rw [hashAWI_true_length] at hj
        rw [(pySort_perm B).length_eq]
        exact hj
      have heqn : hf (sh ((pySort B).getD j "") ++ encodeUint256 j)
          = hf (sh ((pySort A).getD i "") ++ encodeUint256 i) := by
        rw [← hashAWI_true_getD hf sh B j hjS, ← hashAWI_true_getD hf sh A i hi]
        rw [getD_lt _ j hj, getD_lt _ i hiLA]
        exact hje
      have hmemA : sh ((pySort A).getD i "") ++ encodeUint256 i
          ∈ leafInputs sh A ++ leafInputs sh B := by
        apply List.mem_append_left
        rw [← leafInputs_getD sh A i hi]
        have hiLI : i < (leafInputs sh A).length := by
          unfold leafInputs
          simpa using hi
        rw [getD_lt _ i hiLI]
        exact List.getElem_mem hiLI
      have hmemB : sh ((pySort B).getD j "") ++ encodeUint256 j
          ∈ leafInputs sh A ++ leafInputs sh B := by
        apply List.mem_append_right
        rw [← leafInputs_getD sh B j hjS]
        have hjLI : j < (leafInputs sh B).length := by
          unfold leafInputs
          simpa using hjS
        rw [getD_lt _ j hjLI]
        exact List.getElem_mem hjLI
      have hargs := injOnCheck_spec hf _ hhf _ hmemB _ hmemA heqn
      have hdata := congrArg String.data hargs
      simp only [String.data_append] at hdata
      have henclen : (encodeUint256 j).data.length
          = (encodeUint256 i).data.length := by
        rw [encodeUint256_length j (by
            rw [(pySort_perm B).length_eq] at hjS
            omega),
          encodeUint256_length i (by
            rw [(pySort_perm A).length_eq] at hi
            omega)]
      have hs := List.append_inj' hdata henclen
      have hij : j = i :=
        encodeUint256_injective (string_eq_of_data _ _ hs.2)
      have hshEq : sh ((pySort B).getD j "") = sh ((pySort A).getD i "") :=
        string_eq_of_data _ _ hs.1
      have hmemBB : (pySort B).getD j "" ∈ A ++ B := by
        apply List.mem_append_right
        rw [getD_lt _ j hjS]
        exact (pySort_perm B).subset (List.getElem_mem hjS)
      have hmemAA : (pySort A).getD i "" ∈ A ++ B := by
        apply List.mem_append_left
        rw [getD_lt _ i hi]
        exact (pySort_perm A).subset (List.getElem_mem hi)
      have hstmt := injOnCheck_spec sh _ hsh _ hmemBB _ hmemAA hshEq
      rw [hij] at hstmt
      exact hstmt.symm
    have hSAB : pySort A = pySort B := by
      apply List.ext_getElem hlen
      intro i h1 h2
      have hp := hpoint i h1
      rw [getD_lt _ i h1, getD_lt _ i h2] at hp
      exact hp
    exact (pySort_perm A).symm.trans (hSAB ▸ pySort_perm B)
  · intro hperm
    have hs := pySort_eq_of_perm hperm
    have heq : hashAssertionWithIndexes hf sh true A
        = hashAssertionWithIndexes hf sh true B := by
      rw [hashAWI_true_eq, hashAWI_true_eq, hs]
    rw [heq]

/-- Counterexample to C2 as stated: the default mode sorts statements before
indexing, so the reversed two-statement list `["b", "a"]` fingerprints
identically to `["a", "b"]` although the statements are not in identical
order — equal Fingerprints do not require identical order. -/
theorem fingerprint_ignores_order :
    merkleRoot tagHash true
        (hashAssertionWithIndexes tagHash tagKeccak true ["b", "a"])
      = merkleRoot tagHash true
        (hashAssertionWithIndexes tagHash tagKeccak true ["a", "b"])
    ∧ (["b", "a"] : List String) ≠ ["a", "b"] :=
  ⟨rfl, by decide⟩

/-- Witness for the amended C2 at `A = ["b", "a"]`, `B = ["a", "b"]`. -/
theorem fingerprint_eq_iff_perm_witness :
    noEmptyLevels (levelsUp tagHash true
      (hashAssertionWithIndexes tagHash tagKeccak true ["b", "a"])) = true
    ∧ injOnCheck tagHash
        (leafInputs tagKeccak ["b", "a"] ++ leafInputs tagKeccak ["a", "b"]) = true
    ∧ injOnCheck tagKeccak (["b", "a"] ++ ["a", "b"]) = true
    ∧ merkleStructInj tagHash tagKeccak ["b", "a"] ["a", "b"] = true
    ∧ (merkleRoot tagHash true
          (hashAssertionWithIndexes tagHash tagKeccak true ["b", "a"])
        = merkleRoot tagHash true
          (hashAssertionWithIndexes tagHash tagKeccak true ["a", "b"])
      ↔ (["b", "a"] : List String).Perm ["a", "b"]) :=
  ⟨by decide, by decide, by decide, by decide,
    fingerprint_eq_iff_perm tagHash tagKeccak ["b", "a"] ["a", "b"]
      (by decide) (by decide) (by decide) (by decide) (by decide) (by decide)
      (by decide) (by decide) (by decide)⟩
